import Mathlib

/-!
Verification of the limit-orderbook core of this repository against its
specification.

The embedding models the pointer-based AVL tree of `src/avl_tree_py.rs` as a
functional binary tree (parent pointers become implicit: the imperative
algorithm walks from a disturbed node up to the root through parent pointers,
which corresponds exactly to applying the per-node rebalancing step at each
ancestor on the way out of the recursion).  Prices (`f64` in the source, used
only through comparison, division and multiplication by the outlier factor,
all exact for the values appearing here) are modelled as `ℚ`; order uids
(`String` in the source, used only through equality tests) are modelled as
`ℕ`; timestamps (opaque payload) as `ℕ`.
-/

namespace LOB

/-- Side enum from `orderbook_py.rs` / `orderbook_btree_slab.rs` (`Side`). -/
inductive Side where
  | Bids
  | Asks
deriving DecidableEq, Repr

/-- Order record from the source (`Order`): `uid: String` is only ever
compared for equality, modelled as `ℕ`; `price`/`size` are `f64`, modelled as
`ℚ`; `timestamp: String` is an opaque payload, modelled as `ℕ`. -/
structure Order where
  uid : Nat
  side : Side
  price : ℚ
  size : ℚ
  timestamp : Nat
deriving DecidableEq, Repr

/-- The AVL tree of `avl_tree_py.rs`, keys are prices, values are order
stacks (`OrderStack` = `VecDeque<Order>`, front of the deque = head of the
list).  Parent pointers of the source are implicit. -/
inductive Tree where
  | leaf
  | node (left : Tree) (key : ℚ) (stack : List Order) (right : Tree)
deriving DecidableEq, Repr

namespace Tree

/-- Height of a link, `AVLTree::height`: empty link has height 0, a node has
height `1 + max` of its children's heights. -/
def height : Tree → Nat
  | leaf => 0
  | node l _ _ r => max (height l) (height r) + 1

/-- Balance factor of a node, `AVLTree::balance_factor`: height of the right
child minus height of the left child (the source computes it on `isize`).
On an empty link the source dereferences a `None` and panics; this function
is only ever applied to nodes (we return 0 on `leaf`, an unused value). -/
def bf : Tree → Int
  | leaf => 0
  | node l _ _ r => (height r : Int) - (height l : Int)

/-- Number of nodes of the tree (`AVLTree::len` is kept equal to it by
`insert`/`remove`). -/
def size : Tree → Nat
  | leaf => 0
  | node l _ _ r => size l + size r + 1

/-- In-order list of keys. -/
def keys : Tree → List ℚ
  | leaf => []
  | node l k _ r => keys l ++ k :: keys r

/-- In-order association list of key/stack pairs. -/
def kvList : Tree → List (ℚ × List Order)
  | leaf => []
  | node l k s r => kvList l ++ (k, s) :: kvList r

/-- All orders of the tree, in-order over nodes and front-to-back within each
stack. -/
def allOrders : Tree → List Order
  | leaf => []
  | node l _ s r => allOrders l ++ s ++ allOrders r

/-- The AVL balance invariant: at every node the childrens' heights differ by
at most one (spec section 8, invariant 1). -/
def avl : Tree → Bool
  | leaf => true
  | node l _ _ r =>
      (height l ≤ height r + 1 && height r ≤ height l + 1) && avl l && avl r

/-- The strict BST invariant: at every node, all keys of the left subtree are
smaller and all keys of the right subtree are larger than the node's key. -/
def bst : Tree → Bool
  | leaf => true
  | node l k _ r =>
      ((keys l).all (fun x => x < k) && (keys r).all (fun x => k < x))
        && bst l && bst r

/-- Key lookup by BST descent (`AVLTree::get` via `find_link`, returning the
stack stored at the key). -/
def get? : Tree → ℚ → Option (List Order)
  | leaf, _ => none
  | node l k' s r, k =>
      if k < k' then get? l k
      else if k' < k then get? r k
      else some s

/-- Key membership by BST descent (`AVLTree::has` via `find_link`). -/
def hasKey (t : Tree) (k : ℚ) : Bool :=
  (get? t k).isSome

/-- Single left rotation around the root (`AVLTree::rotate`, RR case): the
pivot is the root's right child, the pivot's left child becomes the root's
right child.  On a shape where the rotation is impossible (no right child)
the source would dereference `None`; the fallthrough returns the tree
unchanged, and every use below is guarded by balance-factor facts that force
the rotating shape. -/
def rotateLeft : Tree → Tree
  | node l k s (node rl k' s' rr) => node (node l k s rl) k' s' rr
  | t => t

/-- Single right rotation around the root (`AVLTree::rotate`, LL case),
mirror image of `rotateLeft`. -/
def rotateRight : Tree → Tree
  | node (node ll k' s' lr) k s r => node ll k' s' (node lr k s r)
  | t => t

/-- One rebalancing step at a node (`AVLTree::balance`): if the balance
factor is outside `[-1, 1]`, rotate according to the four cases RR/RL/LL/LR
chosen by the sign of the child's balance factor; the double rotations RL
and LR are implemented in the source as two single rotations
(`rotate(right, LLCase)` then `rotate(root, RRCase)`, and mirrored), which
is what the compositions below perform. -/
def balanceNode (t : Tree) : Tree :=
  match t with
  | leaf => leaf
  | node l k s r =>
      if bf (node l k s r) > 1 then
        if bf r < 0 then rotateLeft (node l k s (rotateRight r))
        else rotateLeft (node l k s r)
      else if bf (node l k s r) < -1 then
        if bf l > 0 then rotateRight (node (rotateLeft l) k s r)
        else rotateRight (node l k s r)
      else node l k s r

/-- Insertion (`AVLTree::insert`): locate the key by BST descent; if absent,
create a node with a one-element stack and rebalance every ancestor on the
way back to the root (`balance_stack` walks the parent pointers from the new
node's parent to the root); if present, append the order to the node's stack
and leave the structure untouched (the source performs no `balance_stack`
call in that branch, hence the `Bool` component recording whether a node was
created).  The source additionally re-checks a rotated position before
moving up; by `balance_restores` a just-rotated subtree is already balanced
there, so that re-check is the identity. -/
def insertP : Tree → ℚ → Order → Tree × Bool
  | leaf, k, o => (node leaf k [o] leaf, true)
  | node l k' s r, k, o =>
      if k < k' then
        let p := insertP l k o
        (if p.2 then balanceNode (node p.1 k' s r) else node p.1 k' s r, p.2)
      else if k' < k then
        let p := insertP r k o
        (if p.2 then balanceNode (node l k' s p.1) else node l k' s p.1, p.2)
      else (node l k' (s ++ [o]) r, false)

/-- Insertion, tree component. -/
def insertT (t : Tree) (k : ℚ) (o : Order) : Tree :=
  (insertP t k o).1

/-- Extraction of the in-order first node of a non-empty tree, used for the
two-children case of `remove_by_location`: the successor is the leftmost
node of the right subtree (`min_under_right`); detaching it hands its right
child to its old parent, and the source rebalances from that old parent
upward, which is the `balanceNode` applied on the way out of this
recursion.  Returns the extracted node's key and stack together with the
remaining tree.  Only called on non-empty trees; the `leaf` equation returns
an unused dummy. -/
def removeMin : Tree → (ℚ × List Order) × Tree
  | leaf => ((0, []), leaf)
  | node leaf k s r => ((k, s), r)
  | node (node a ka sa b) k s r =>
      let p := removeMin (node a ka sa b)
      (p.1, balanceNode (node p.2 k s r))

/-- Removal by key (`AVLTree::remove` / `remove_by_location`): BST descent;
absent key returns the tree unchanged with no rebalancing (the source
returns early), recorded in the `Bool` component.  A found node with at most
one child is replaced by that child (`replace_with_child`); a node with two
children is replaced by its in-order successor, which keeps its own right
subtree or adopts the removed node's right subtree as in the source, and
rebalancing starts at the successor's old parent (inside `removeMin`),
continues at the successor's new position and every further ancestor. -/
def removeP : Tree → ℚ → Tree × Bool
  | leaf, _ => (leaf, false)
  | node l k' s r, k =>
      if k < k' then
        let p := removeP l k
        (if p.2 then balanceNode (node p.1 k' s r) else node p.1 k' s r, p.2)
      else if k' < k then
        let p := removeP r k
        (if p.2 then balanceNode (node l k' s p.1) else node l k' s p.1, p.2)
      else
        match l, r with
        | leaf, _ => (r, true)
        | node la ka sa lb, leaf => (node la ka sa lb, true)
        | node la ka sa lb, node ra kra sra rb =>
            let p := removeMin (node ra kra sra rb)
            (balanceNode (node (node la ka sa lb) p.1.1 p.1.2 p.2), true)

/-- Removal, tree component. -/
def removeT (t : Tree) (k : ℚ) : Tree :=
  (removeP t k).1

/-- Mirror image of a tree (used to transport facts between the left- and
right-handed rotation cases and between the forward and reverse
iterators). -/
def mirror : Tree → Tree
  | leaf => leaf
  | node l k s r => node (mirror r) k s (mirror l)

/-- A tree operation: `insert` with a key and an order, or `remove` by
key. -/
inductive Op where
  | ins (k : ℚ) (o : Order)
  | del (k : ℚ)
deriving DecidableEq, Repr

/-- Apply one operation. -/
def applyOp (t : Tree) : Op → Tree
  | .ins k o => insertT t k o
  | .del k => removeT t k

/-- Apply a finite sequence of insert/remove operations to the empty tree. -/
def applyOps (ops : List Op) : Tree :=
  ops.foldl applyOp leaf

/-- Skeleton of a tree: keys and links with the stacks erased; used to state
that appending to an existing stack changes no tree node or link. -/
def strip : Tree → Tree
  | leaf => leaf
  | node l k _ r => node (strip l) k [] (strip r)

/-- Replace the stack stored at a key (the source obtains `get_mut` on the
node and mutates the `OrderStack` in place). -/
def setStack : Tree → ℚ → List Order → Tree
  | leaf, _, _ => leaf
  | node l k' s r, k, ns =>
      if k < k' then node (setStack l k ns) k' s r
      else if k' < k then node l k' s (setStack r k ns)
      else node l k' ns r

/-- Sorted insertion into an in-order association list (specification-side
description of what `insert` does to `kvList` for an absent key). -/
def insertKV (k : ℚ) (s : List Order) : List (ℚ × List Order) → List (ℚ × List Order)
  | [] => [(k, s)]
  | (k', s') :: rest =>
      if k < k' then (k, s) :: (k', s') :: rest else (k', s') :: insertKV k s rest

/-- Removal of the entry of a key from an in-order association list
(specification-side description of what `remove` does to `kvList`). -/
def eraseKV (k : ℚ) : List (ℚ × List Order) → List (ℚ × List Order)
  | [] => []
  | (k', s') :: rest => if k = k' then rest else (k', s') :: eraseKV k rest

/-- Key of the in-order last node (`Iter::next_back` on a fresh iterator
walks from the root to the right-most node, its `first_move` branch). -/
def lastKey? : Tree → Option ℚ
  | leaf => none
  | node _ k _ leaf => some k
  | node _ _ _ (node a b c d) => lastKey? (node a b c d)

/-- Key of the in-order first node (`Iter::next` on a fresh iterator walks
from the root to the left-most node, its `first_move` branch). -/
def firstKey? : Tree → Option ℚ
  | leaf => none
  | node leaf k _ _ => some k
  | node (node a b c d) _ _ _ => firstKey? (node a b c d)

end Tree

/-!
The stateful in-order iterator of `avl_tree_py.rs` (`Iter::next` and
`Iter::next_back`).  The source keeps a raw pointer to the current node and
walks child and parent pointers; a node of a functional tree is identified
by its path from the root, and walking to the parent pops the last step of
the path.  The source classifies each node as its parent's left or right
child by comparing keys (`Node::get_parentage`, which panics on equal or
incomparable keys); for a tree satisfying the strict BST invariant this is
exactly the stored direction (`theorem getParentage_eq_dir` below), which is
what `climb` uses.
-/

namespace Tree

/-- One step of a root-to-node path: left or right child. -/
inductive Dir where
  | L
  | R
deriving DecidableEq, Repr

/-- A node of a tree named by its path from the root. -/
abbrev Path := List Dir

/-- Subtree reached by following a path. -/
def subtreeAt : Tree → Path → Option Tree
  | t, [] => some t
  | leaf, _ :: _ => none
  | node l _ _ _, .L :: p => subtreeAt l p
  | node _ _ _ r, .R :: p => subtreeAt r p

/-- Key and stack of the node at a path. -/
def itemAt (t : Tree) (p : Path) : Option (ℚ × List Order) :=
  match subtreeAt t p with
  | some (node _ k s _) => some (k, s)
  | _ => none

/-- Path from the root of the given subtree to its left-most node (the
`while current.left.is_some()` descents of `Iter::next`). -/
def leftSpine : Tree → Path
  | leaf => []
  | node leaf _ _ _ => []
  | node (node a b c d) _ _ _ => .L :: leftSpine (node a b c d)

/-- Path from the root of the given subtree to its right-most node (the
descents of `Iter::next_back`). -/
def rightSpine : Tree → Path
  | leaf => []
  | node _ _ _ leaf => []
  | node _ _ _ (node a b c d) => .R :: rightSpine (node a b c d)

/-- The upward walk of `Iter::next`: climb parent pointers while arriving
from a right child; on arriving from a left child, yield the parent; at the
root, the traversal is finished.  On a path this pops trailing `R` steps and
then one `L` step. -/
def climb : Path → Option Path
  | [] => none
  | d :: p =>
      match climb p with
      | some q => some (d :: q)
      | none => match d with | .L => some [] | .R => none

/-- The upward walk of `Iter::next_back`, mirror image of `climb`. -/
def climbB : Path → Option Path
  | [] => none
  | d :: p =>
      match climbB p with
      | some q => some (d :: q)
      | none => match d with | .R => some [] | .L => none

/-- `Iter::next` after the first move: if the current node has a right
subtree, move to its left-most node, otherwise climb.  An invalid path never
occurs in a run; its fallthrough climbs. -/
def nextPos (t : Tree) (p : Path) : Option Path :=
  match subtreeAt t p with
  | some (node _ _ _ (node rl k s rr)) => some (p ++ .R :: leftSpine (node rl k s rr))
  | _ => climb p

/-- `Iter::next_back` after the first move, mirror image of `nextPos`. -/
def prevPos (t : Tree) (p : Path) : Option Path :=
  match subtreeAt t p with
  | some (node (node ll k s lr) _ _ _) => some (p ++ .L :: rightSpine (node ll k s lr))
  | _ => climbB p

/-- In-order list of the paths of all nodes of the tree. -/
def posList : Tree → List Path
  | leaf => []
  | node l _ _ r => (posList l).map (.L :: ·) ++ [] :: (posList r).map (.R :: ·)

/-- Items yielded by repeatedly calling `Iter::next` starting from (and not
including) the node at `p`; the `Bool` is `true` when the iterator signalled
exhaustion by returning `None` within the allotted number of calls. -/
def iterFrom (t : Tree) : Nat → Path → List (ℚ × List Order) × Bool
  | 0, _ => ([], false)
  | n + 1, p =>
      match nextPos t p with
      | none => ([], true)
      | some q =>
          match itemAt t q with
          | some it => ((it :: (iterFrom t n q).1), (iterFrom t n q).2)
          | none => ([], false)

/-- Items yielded by a full run of `Iter::next` on a fresh iterator: the
first call descends to the left-most node (`first_move`), each later call
advances by `nextPos`; on an empty tree the first call returns `None`. -/
def inorderRun (t : Tree) : List (ℚ × List Order) × Bool :=
  match t with
  | leaf => ([], true)
  | node _ _ _ _ =>
      match itemAt t (leftSpine t) with
      | some it => ((it :: (iterFrom t (size t) (leftSpine t)).1),
                    (iterFrom t (size t) (leftSpine t)).2)
      | none => ([], false)

/-- Items yielded by repeatedly calling `Iter::next_back` after the node at
`p`, mirror image of `iterFrom`. -/
def iterBackFrom (t : Tree) : Nat → Path → List (ℚ × List Order) × Bool
  | 0, _ => ([], false)
  | n + 1, p =>
      match prevPos t p with
      | none => ([], true)
      | some q =>
          match itemAt t q with
          | some it => ((it :: (iterBackFrom t n q).1), (iterBackFrom t n q).2)
          | none => ([], false)

/-- Items yielded by a full run of `Iter::next_back` on a fresh iterator
(first call descends to the right-most node). -/
def inorderBackRun (t : Tree) : List (ℚ × List Order) × Bool :=
  match t with
  | leaf => ([], true)
  | node _ _ _ _ =>
      match itemAt t (rightSpine t) with
      | some it => ((it :: (iterBackFrom t (size t) (rightSpine t)).1),
                    (iterBackFrom t (size t) (rightSpine t)).2)
      | none => ([], false)

end Tree

/-!
The two orderbook variants.  `BookPy` embeds `orderbook_py.rs`, whose AVL
trees are those of `avl_tree_py.rs` above.  `BookSlab` embeds
`orderbook_btree_slab.rs`; the AVL tree module it uses (`crate::avl_tree`)
is not among the provided sources, so the tree half of that book is
modelled from the spec by the same ordered-map semantics (sections 4.2 and
4.4.5 of the spec: ordered map keyed by price, in-order and reverse
in-order iteration), reusing `Tree`.

The order index (`HashMap<String, (Side, f64)>`) is modelled as an
association list with overwrite-on-insert; only `get`/`insert`/`remove` are
used by the source.
-/

/-- Lookup in the order index (`HashMap::get`). -/
def mapLookup : List (Nat × Side × ℚ) → Nat → Option (Side × ℚ)
  | [], _ => none
  | (u, v) :: rest, uid => if u = uid then some v else mapLookup rest uid

/-- Removal from the order index (`HashMap::remove`). -/
def mapErase : List (Nat × Side × ℚ) → Nat → List (Nat × Side × ℚ)
  | [], _ => []
  | (u, v) :: rest, uid => if u = uid then mapErase rest uid else (u, v) :: mapErase rest uid

/-- Insertion into the order index (`HashMap::insert`, overwriting any
previous binding of the uid). -/
def mapInsert (m : List (Nat × Side × ℚ)) (uid : Nat) (v : Side × ℚ) :
    List (Nat × Side × ℚ) :=
  (uid, v) :: mapErase m uid

/-- `OrderStack::remove`: remove the first order with the uid, if any. -/
def stackRemove : List Order → Nat → List Order
  | [], _ => []
  | o :: rest, uid => if o.uid = uid then rest else o :: stackRemove rest uid

/-- `OrderStack::get_order`: first order with the uid. -/
def stackFind? (s : List Order) (uid : Nat) : Option Order :=
  s.find? (fun o => o.uid = uid)

/-- In-place size mutation through `OrderStack::get_mut_by_uid`: set the
size of the first order with the uid. -/
def stackSetSize : List Order → Nat → ℚ → List Order
  | [], _, _ => []
  | o :: rest, uid, sz =>
      if o.uid = uid then { o with size := sz } :: rest
      else o :: stackSetSize rest uid sz

/-- `OrderStack::cum_order_size` / `OrderStack::size`: sum of sizes. -/
def stackSum (s : List Order) : ℚ :=
  s.foldl (fun acc o => acc + o.size) 0

/-- The `LimitOrderbook` of `orderbook_py.rs` (the `error_msgs` field is
never read or written outside `check`, which builds a fresh set, so it is
omitted). -/
structure BookPy where
  bids : Tree
  asks : Tree
  order_map : List (Nat × Side × ℚ)
  len : Nat
  items_processed : Nat
deriving DecidableEq, Repr

namespace BookPy

/-- `LimitOrderbook::new`. -/
def new : BookPy := ⟨.leaf, .leaf, [], 0, 0⟩

/-- `LimitOrderbook::get_order`: index lookup, then the stack at the
recorded side and price, then a scan of that stack.  The source `unwrap`s
the two inner lookups (panicking on an index entry pointing at a missing
node or order); those branches return `none` here and every theorem using
them is guarded so they are not reached. -/
def getOrder? (b : BookPy) (uid : Nat) : Option Order :=
  match mapLookup b.order_map uid with
  | none => none
  | some (side, key) =>
      match (match side with
             | .Bids => b.bids.get? key
             | .Asks => b.asks.get? key) with
      | none => none
      | some s => stackFind? s uid

/-- `LimitOrderbook::has`. -/
def has (b : BookPy) (uid : Nat) : Bool :=
  (b.getOrder? uid).isSome

/-- `LimitOrderbook::best_ask` of `orderbook_py.rs`: the source takes
`self.asks.iter().next_back()`, the in-order LAST node of the asks tree. -/
def bestAsk (b : BookPy) : Option ℚ :=
  Tree.lastKey? b.asks

/-- `LimitOrderbook::best_bid` of `orderbook_py.rs`:
`self.bids.iter().next_back()`, the in-order last node of the bids tree. -/
def bestBid (b : BookPy) : Option ℚ :=
  Tree.lastKey? b.bids

/-- `LimitOrderbook::node_count`. -/
def nodeCount (b : BookPy) : Nat :=
  b.bids.size + b.asks.size

/-- `LimitOrderbook::insert` of `orderbook_py.rs`: no presence check, no
outlier guard — the order is always appended at its price in the side's
tree, the index entry is overwritten, and `len` is incremented. -/
def insert (b : BookPy) (o : Order) : BookPy :=
  let b' := match o.side with
    | Side.Bids => { b with bids := b.bids.insertT o.price o }
    | Side.Asks => { b with asks := b.asks.insertT o.price o }
  { b' with order_map := mapInsert b'.order_map o.uid (o.side, o.price),
            len := b'.len + 1 }

/-- `LimitOrderbook::remove` of `orderbook_py.rs`: on an absent uid, do
nothing; otherwise remove the order from the stack at the recorded price,
drop the node if the stack became empty, decrement `len` and delete the
index entry.  The source `unwrap`s the tree lookup; that branch returns the
book unchanged here and is only reached from index-inconsistent states. -/
def remove (b : BookPy) (uid : Nat) : BookPy :=
  match mapLookup b.order_map uid with
  | none => b
  | some (side, key) =>
      match side with
      | Side.Bids =>
          match b.bids.get? key with
          | none => b
          | some s =>
              let s' := stackRemove s uid
              let bids' := if s'.isEmpty then b.bids.removeT key
                           else b.bids.setStack key s'
              { b with bids := bids', len := b.len - 1,
                       order_map := mapErase b.order_map uid }
      | Side.Asks =>
          match b.asks.get? key with
          | none => b
          | some s =>
              let s' := stackRemove s uid
              let asks' := if s'.isEmpty then b.asks.removeT key
                           else b.asks.setStack key s'
              { b with asks := asks', len := b.len - 1,
                       order_map := mapErase b.order_map uid }

/-- Write the new size through the mutable reference returned by
`get_order_mut` (only called when `getOrder?` succeeded). -/
def setSize (b : BookPy) (uid : Nat) (sz : ℚ) : BookPy :=
  match mapLookup b.order_map uid with
  | none => b
  | some (side, key) =>
      match side with
      | Side.Bids =>
          match b.bids.get? key with
          | none => b
          | some s => { b with bids := b.bids.setStack key (stackSetSize s uid sz) }
      | Side.Asks =>
          match b.asks.get? key with
          | none => b
          | some s => { b with asks := b.asks.setStack key (stackSetSize s uid sz) }

/-- `LimitOrderbook::update` of `orderbook_py.rs`: no-op on an absent uid;
a zero new size forwards to `remove`; otherwise the size is edited in
place. -/
def update (b : BookPy) (uid : Nat) (newSize : ℚ) : BookPy :=
  match b.getOrder? uid with
  | none => b
  | some _ => if newSize = 0 then b.remove uid else b.setSize uid newSize

end BookPy

/-- The `Submit` action enum shared by both orderbooks. -/
inductive Submit where
  | Ins
  | Rem
  | Upd
deriving DecidableEq, Repr

/-- `LimitOrderbook::process` of `orderbook_py.rs`: parse the query (pure
routing, never the `Err` branch), dispatch, then increment
`items_processed`. -/
def BookPy.process (b : BookPy) (o : Order) (a : Submit) : BookPy :=
  let b' := match a with
    | .Ins => b.insert o
    | .Rem => b.remove o.uid
    | .Upd => b.update o.uid o.size
  { b' with items_processed := b'.items_processed + 1 }

/-- `AVLTree::is_balanced` of `avl_tree_py.rs`: the balance factor OF THE
ROOT alone, checked against `-1..=1`.  `balance_factor` unwraps the root
link, so on an empty tree the call panics, modelled as `none`. -/
def isBalancedOpt (t : Tree) : Option Bool :=
  match t with
  | .leaf => none
  | .node l k s r =>
      some (-1 ≤ Tree.bf (.node l k s r) && Tree.bf (.node l k s r) ≤ 1)

/-- Error messages produced by `LimitOrderbook::check`; the source uses
string messages, modelled as an enumeration to keep them inspectable. -/
inductive Msg where
  | bidsNotBalanced
  | asksNotBalanced
deriving DecidableEq, Repr

/-- Modelled from the spec: `AVLTree::check_pointer_validity` in
`avl_tree_py.rs` is unfinished (its body is incomplete and does not
compile), and the spec's open questions leave its message set unspecified;
per the spec it audits parent-pointer consistency, which a functional tree
satisfies by construction, so it contributes no messages. -/
def pointerValidityMsgs (_t : Tree) : List Msg := []

/-- `LimitOrderbook::check` of `orderbook_py.rs`: pointer-validity audit of
both trees, then an imbalance message per side exactly when that side's
`is_balanced` returns false.  `is_balanced` panics on an empty tree
(`none`). -/
def BookPy.check (b : BookPy) : Option (List Msg) :=
  match isBalancedOpt b.bids, isBalancedOpt b.asks with
  | some bb, some ba =>
      some (pointerValidityMsgs b.bids ++ pointerValidityMsgs b.asks
            ++ (if bb then [] else [Msg.bidsNotBalanced])
            ++ (if ba then [] else [Msg.asksNotBalanced]))
  | _, _ => none

/-- The `LimitOrderbook` of `orderbook_btree_slab.rs`: adds the outlier
guard state (`outlier_factor`, default 2.0, the per-side cutoffs and the
`outliers` counter).  The `timestamp`, `error_msgs` and display-cutoff
fields play no part in any claim and are omitted. -/
structure BookSlab where
  bids : Tree
  asks : Tree
  order_map : List (Nat × Side × ℚ)
  len : Nat
  items_processed : Nat
  outlier_factor : ℚ
  bid_cutoff : ℚ
  ask_cutoff : ℚ
  outliers : Nat
deriving DecidableEq, Repr

namespace BookSlab

/-- `LimitOrderbook::new` of `orderbook_btree_slab.rs`. -/
def new : BookSlab := ⟨.leaf, .leaf, [], 0, 0, 2, 0, 0, 0⟩

/-- Modelled from the spec: `best_ask` takes the first item of the missing
slab tree module's in-order iterator, per spec section 4.4.5 the in-order
FIRST (minimum) key, absent on an empty tree. -/
def bestAsk (b : BookSlab) : Option ℚ :=
  Tree.firstKey? b.asks

/-- Modelled from the spec: `best_bid` takes `next_back` of the missing slab
tree module's iterator, per spec section 4.4.5 the in-order last (maximum)
key, absent on an empty tree. -/
def bestBid (b : BookSlab) : Option ℚ :=
  Tree.lastKey? b.bids

/-- `LimitOrderbook::handle_outlier` of `orderbook_btree_slab.rs`: for a
bid, an empty bids tree or a price above the best bid refreshes the bid
cutoff to `price / outlier_factor` and accepts; a price above the stored
cutoff accepts without refreshing; anything else is an outlier.  Mirrored
for asks with `price × outlier_factor`.  The empty-tree test `is_empty` and
the `best_bid().unwrap()` are combined into one match on the best price
(absent exactly for the empty tree). -/
def handleOutlier (b : BookSlab) (o : Order) : Bool × BookSlab :=
  match o.side with
  | Side.Bids =>
      match b.bestBid with
      | none => (false, { b with bid_cutoff := o.price / b.outlier_factor })
      | some bb =>
          if bb < o.price then (false, { b with bid_cutoff := o.price / b.outlier_factor })
          else if b.bid_cutoff < o.price then (false, b)
          else (true, b)
  | Side.Asks =>
      match b.bestAsk with
      | none => (false, { b with ask_cutoff := o.price * b.outlier_factor })
      | some ba =>
          if o.price < ba then (false, { b with ask_cutoff := o.price * b.outlier_factor })
          else if o.price < b.ask_cutoff then (false, b)
          else (true, b)

/-- `LimitOrderbook::insert` of `orderbook_btree_slab.rs`: run the outlier
check (which may refresh a cutoff); a non-outlier is appended at its price,
indexed, and counted in `len`; an outlier only bumps the `outliers`
counter. -/
def insert (b : BookSlab) (o : Order) : BookSlab :=
  let ho := b.handleOutlier o
  if ho.1 then { ho.2 with outliers := ho.2.outliers + 1 }
  else
    let b' := match o.side with
      | Side.Bids => { ho.2 with bids := ho.2.bids.insertT o.price o }
      | Side.Asks => { ho.2 with asks := ho.2.asks.insertT o.price o }
    { b' with order_map := mapInsert b'.order_map o.uid (o.side, o.price),
              len := b'.len + 1 }

/-- `LimitOrderbook::get_order` of `orderbook_btree_slab.rs` (same shape as
the `orderbook_py.rs` one). -/
def getOrder? (b : BookSlab) (uid : Nat) : Option Order :=
  match mapLookup b.order_map uid with
  | none => none
  | some (side, key) =>
      match (match side with
             | .Bids => b.bids.get? key
             | .Asks => b.asks.get? key) with
      | none => none
      | some s => stackFind? s uid

/-- `LimitOrderbook::remove` of `orderbook_btree_slab.rs` (same body as the
`orderbook_py.rs` one). -/
def remove (b : BookSlab) (uid : Nat) : BookSlab :=
  match mapLookup b.order_map uid with
  | none => b
  | some (side, key) =>
      match side with
      | Side.Bids =>
          match b.bids.get? key with
          | none => b
          | some s =>
              let s' := stackRemove s uid
              let bids' := if s'.isEmpty then b.bids.removeT key
                           else b.bids.setStack key s'
              { b with bids := bids', len := b.len - 1,
                       order_map := mapErase b.order_map uid }
      | Side.Asks =>
          match b.asks.get? key with
          | none => b
          | some s =>
              let s' := stackRemove s uid
              let asks' := if s'.isEmpty then b.asks.removeT key
                           else b.asks.setStack key s'
              { b with asks := asks', len := b.len - 1,
                       order_map := mapErase b.order_map uid }

/-- Size mutation used by `update` (as in `BookPy.setSize`). -/
def setSize (b : BookSlab) (uid : Nat) (sz : ℚ) : BookSlab :=
  match mapLookup b.order_map uid with
  | none => b
  | some (side, key) =>
      match side with
      | Side.Bids =>
          match b.bids.get? key with
          | none => b
          | some s => { b with bids := b.bids.setStack key (stackSetSize s uid sz) }
      | Side.Asks =>
          match b.asks.get? key with
          | none => b
          | some s => { b with asks := b.asks.setStack key (stackSetSize s uid sz) }

/-- `LimitOrderbook::update` of `orderbook_btree_slab.rs`. -/
def update (b : BookSlab) (uid : Nat) (newSize : ℚ) : BookSlab :=
  match b.getOrder? uid with
  | none => b
  | some _ => if newSize = 0 then b.remove uid else b.setSize uid newSize

/-- `LimitOrderbook::process` of `orderbook_btree_slab.rs`: dispatch on the
action, then increment `items_processed` unconditionally. -/
def process (b : BookSlab) (o : Order) (a : Submit) : BookSlab :=
  let b' := match a with
    | Submit.Ins => b.insert o
    | Submit.Rem => b.remove o.uid
    | Submit.Upd => b.update o.uid o.size
  { b' with items_processed := b'.items_processed + 1 }

/-- A finite sequence of `process` calls starting from a fresh book. -/
def processAll (xs : List (Order × Submit)) : BookSlab :=
  xs.foldl (fun b x => b.process x.1 x.2) new

end BookSlab

/-!
The full-order iterator of `orderbook_py.rs` (`LimitOrderbook::iter` and
`Iter::next` of that file): it walks the bids tree's in-order node sequence
and within each node its stack, then switches to the asks tree.  The switch
(`Side::Bids`, `current_node == None`) unconditionally unwraps the next ask
node, which panics when the asks tree is exhausted or empty.
-/

namespace Tree

/-- State of an `avl_tree_py.rs` tree iterator: the current link (a path;
`none` when the iterator was created on an empty tree) and the `first_move`
flag. -/
structure TIter where
  pos : Option Path
  firstMove : Bool
deriving DecidableEq, Repr

/-- A fresh iterator (`AVLTree::iter`): `current_link` is the root. -/
def TIter.init (t : Tree) : TIter :=
  ⟨if t = leaf then none else some [], true⟩

/-- One `Iter::next` call: on the first move descend from the root to the
left-most node (or return `None` on an empty tree); afterwards advance by
`nextPos`.  Returns the yielded node's path and the updated state.  After
exhaustion the source parks `current_link` wherever the final climb left it
and the orderbook iterator never polls it again; the state is returned
unchanged here. -/
def treeNext (t : Tree) (it : TIter) : Option Path × TIter :=
  match it.firstMove, it.pos with
  | true, none => (none, it)
  | true, some _ => (some (leftSpine t), ⟨some (leftSpine t), false⟩)
  | false, some p =>
      match nextPos t p with
      | some q => (some q, ⟨some q, false⟩)
      | none => (none, it)
  | false, none => (none, it)

/-- Stack stored at a path (with an unused default for invalid paths). -/
def stackAtD (t : Tree) (p : Path) : List Order :=
  ((itemAt t p).map (fun it => it.2)).getD []

end Tree

/-- State of the `orderbook_py.rs` full-order iterator (`Iter`): the side
being walked, the current node, the two tree iterators and the remainder of
the current node's stack (`stack_iter`). -/
structure LIter where
  side : Side
  cur : Option Tree.Path
  bidIt : Tree.TIter
  askIt : Tree.TIter
  stack : Option (List Order)
deriving DecidableEq, Repr

/-- `LimitOrderbook::iter` of `orderbook_py.rs`: create both tree iterators;
take the first bid node if any, else the first ask node (note that `side`
stays `Bids` in both cases); set `stack_iter` from the current node. -/
def LIter.init (bids asks : Tree) : LIter :=
  let pb := Tree.treeNext bids (Tree.TIter.init bids)
  match pb.1 with
  | some p =>
      ⟨Side.Bids, some p, pb.2, Tree.TIter.init asks, some (Tree.stackAtD bids p)⟩
  | none =>
      let pa := Tree.treeNext asks (Tree.TIter.init asks)
      match pa.1 with
      | some p => ⟨Side.Bids, some p, pb.2, pa.2, some (Tree.stackAtD asks p)⟩
      | none => ⟨Side.Bids, none, pb.2, pa.2, none⟩

/-- Result of one `Iter::next` call on the full-order iterator. -/
inductive LStep where
  | yield (o : Order) (st : LIter)
  | done
  | panic
  | fuel
deriving DecidableEq, Repr

/-- The loop body of `Iter::next` in `orderbook_py.rs`, with a fuel bound on
the number of loop iterations (each iteration that does not return advances
a tree iterator or switches sides, so `size bids + size asks + 2` iterations
always suffice; `.fuel` is never reached with that bound).  The `.panic`
results are the source's `unwrap`s: of `stack_iter` and, on the switch to
the asks side, of `self.current_node` — the latter is the panic of claim
C9. -/
def lobNextAux (bids asks : Tree) : Nat → LIter → LStep
  | 0, _ => .fuel
  | n + 1, st =>
      match st.side with
      | Side.Bids =>
          match st.cur with
          | some _ =>
              match st.stack with
              | none => .panic
              | some [] =>
                  let pb := Tree.treeNext bids st.bidIt
                  lobNextAux bids asks n
                    { st with cur := pb.1, bidIt := pb.2,
                              stack := pb.1.map (Tree.stackAtD bids) }
              | some (o :: rest) => .yield o { st with stack := some rest }
          | none =>
              let pa := Tree.treeNext asks st.askIt
              match pa.1 with
              | none => .panic
              | some p =>
                  lobNextAux bids asks n
                    { st with side := Side.Asks, cur := some p, askIt := pa.2,
                              stack := some (Tree.stackAtD asks p) }
      | Side.Asks =>
          match st.cur with
          | some _ =>
              match st.stack with
              | none => .panic
              | some [] =>
                  let pa := Tree.treeNext asks st.askIt
                  lobNextAux bids asks n
                    { st with cur := pa.1, askIt := pa.2,
                              stack := pa.1.map (Tree.stackAtD asks) }
              | some (o :: rest) => .yield o { st with stack := some rest }
          | none => .done

/-- Outcome of a full run of the full-order iterator. -/
inductive ROut where
  | finished
  | panicked
  | fuelOut
deriving DecidableEq, Repr

/-- Repeatedly call the full-order iterator, collecting yielded orders,
until it reports completion or panics (with an outer fuel that the theorems
instantiate generously). -/
def lobRun (bids asks : Tree) : Nat → LIter → List Order × ROut
  | 0, _ => ([], .fuelOut)
  | n + 1, st =>
      match lobNextAux bids asks (bids.size + asks.size + 2) st with
      | .yield o st' => ((o :: (lobRun bids asks n st').1), (lobRun bids asks n st').2)
      | .done => ([], .finished)
      | .panic => ([], .panicked)
      | .fuel => ([], .fuelOut)

/-- Full run of `LimitOrderbook::iter` of `orderbook_py.rs` over a book. -/
def BookPy.iterRun (b : BookPy) : List Order × ROut :=
  lobRun b.bids b.asks
    ((b.bids.allOrders).length + (b.asks.allOrders).length + 2)
    (LIter.init b.bids b.asks)

/-- The first node at or after a list of positions whose stack is
non-empty, with that stack's head and tail: the value scanned for by the
empty-stack skip loop inside one `Iter::next` call. -/
def firstYield (bids : Tree) : List Tree.Path → Option (Tree.Path × Order × List Order)
  | [] => none
  | q :: qs =>
      match Tree.stackAtD bids q with
      | [] => firstYield bids qs
      | o :: rest => some (q, o, rest)

/-!
Lemmas and theorems.  First the height/balance analysis of the rebalancing
step and the preservation of the AVL invariant by insertion and removal
(claim C3).
-/

namespace Tree

theorem height_node (l : Tree) (k : ℚ) (s : List Order) (r : Tree) :
    height (node l k s r) = max (height l) (height r) + 1 := rfl

theorem avl_node (l : Tree) (k : ℚ) (s : List Order) (r : Tree) :
    avl (node l k s r) = true ↔
      (height l ≤ height r + 1 ∧ height r ≤ height l + 1)
        ∧ avl l = true ∧ avl r = true := by
  simp [avl, Bool.and_eq_true, decide_eq_true_eq, and_assoc]

theorem balanceNode_of_bal (l : Tree) (k : ℚ) (s : List Order) (r : Tree)
    (h1 : height l ≤ height r + 1) (h2 : height r ≤ height l + 1) :
    balanceNode (node l k s r) = node l k s r := by
  simp only [balanceNode, bf]
  rw [if_neg (by push_cast; omega), if_neg (by push_cast; omega)]

theorem balance_rot_right (l : Tree) (k : ℚ) (s : List Order) (r : Tree)
    (hal : avl l = true) (har : avl r = true) (hh : height r = height l + 2) :
    avl (balanceNode (node l k s r)) = true ∧
      (height (balanceNode (node l k s r)) = height l + 2 ∨
        height (balanceNode (node l k s r)) = height l + 3) := by
  cases r with
  | leaf => simp [height] at hh
  | node rl k' s' rr =>
    rw [avl_node] at har
    obtain ⟨⟨hr1, hr2⟩, harl, harr⟩ := har
    simp only [height_node] at hh
    have hbf : bf (node l k s (node rl k' s' rr)) > 1 := by
      simp only [bf, height_node]; omega
    by_cases hc : bf (node rl k' s' rr) < 0
    · cases rl with
      | leaf => simp only [bf, height_node, height] at hc; omega
      | node a ka sa b =>
        rw [avl_node] at harl
        obtain ⟨⟨ha1, ha2⟩, haa, hab⟩ := harl
        simp only [height_node] at hr1 hr2 hh ⊢
        simp only [balanceNode, if_pos hbf, if_pos hc, rotateRight, rotateLeft]
        simp only [bf, height_node] at hc
        constructor
        · rw [avl_node]
          refine ⟨⟨?_, ?_⟩, ?_, ?_⟩ <;>
            first
            | assumption
            | omega
            | (simp only [height_node]; omega)
            | (rw [avl_node]; refine ⟨⟨?_, ?_⟩, ?_, ?_⟩ <;>
                first | assumption | omega | (simp only [height_node]; omega))
        · simp only [height_node]; omega
    · simp only [balanceNode, if_pos hbf, if_neg hc, rotateLeft]
      simp only [bf, height_node] at hc
      constructor
      · rw [avl_node]
        refine ⟨⟨?_, ?_⟩, ?_, ?_⟩ <;>
          first
          | assumption
          | omega
          | (simp only [height_node]; omega)
          | (rw [avl_node]; refine ⟨⟨?_, ?_⟩, ?_, ?_⟩ <;>
              first | assumption | omega | (simp only [height_node]; omega))
      · simp only [height_node]; omega

theorem balance_rot_left (l : Tree) (k : ℚ) (s : List Order) (r : Tree)
    (hal : avl l = true) (har : avl r = true) (hh : height l = height r + 2) :
    avl (balanceNode (node l k s r)) = true ∧
      (height (balanceNode (node l k s r)) = height r + 2 ∨
        height (balanceNode (node l k s r)) = height r + 3) := by
  cases l with
  | leaf => simp [height] at hh
  | node ll k' s' lr =>
    rw [avl_node] at hal
    obtain ⟨⟨hl1, hl2⟩, hall, halr⟩ := hal
    simp only [height_node] at hh
    have hbf1 : ¬ bf (node (node ll k' s' lr) k s r) > 1 := by
      simp only [bf, height_node]; omega
    have hbf : bf (node (node ll k' s' lr) k s r) < -1 := by
      simp only [bf, height_node]; omega
    by_cases hc : bf (node ll k' s' lr) > 0
    · cases lr with
      | leaf => simp only [bf, height_node, height] at hc; omega
      | node c kc sc d =>
        rw [avl_node] at halr
        obtain ⟨⟨hd1, hd2⟩, hac, had⟩ := halr
        simp only [height_node] at hl1 hl2 hh ⊢
        simp only [balanceNode, if_neg hbf1, if_pos hbf, if_pos hc, rotateLeft,
          rotateRight]
        simp only [bf, height_node] at hc
        constructor
        · rw [avl_node]
          refine ⟨⟨?_, ?_⟩, ?_, ?_⟩ <;>
            first
            | assumption
            | omega
            | (simp only [height_node]; omega)
            | (rw [avl_node]; refine ⟨⟨?_, ?_⟩, ?_, ?_⟩ <;>
                first | assumption | omega | (simp only [height_node]; omega))
        · simp only [height_node]; omega
    · simp only [balanceNode, if_neg hbf1, if_pos hbf, if_neg hc, rotateRight]
      simp only [bf, height_node] at hc
      constructor
      · rw [avl_node]
        refine ⟨⟨?_, ?_⟩, ?_, ?_⟩ <;>
          first
          | assumption
          | omega
          | (simp only [height_node]; omega)
          | (rw [avl_node]; refine ⟨⟨?_, ?_⟩, ?_, ?_⟩ <;>
              first | assumption | omega | (simp only [height_node]; omega))
      · simp only [height_node]; omega

theorem insertP_avl (t : Tree) (k : ℚ) (o : Order) (ht : avl t = true) :
    avl (insertP t k o).1 = true ∧
      height t ≤ height (insertP t k o).1 ∧
      height (insertP t k o).1 ≤ height t + 1 ∧
      ((insertP t k o).2 = false → height (insertP t k o).1 = height t) := by
  induction t with
  | leaf => simp [insertP, avl, height]
  | node l k' s r ihl ihr =>
    rw [avl_node] at ht
    obtain ⟨⟨h1, h2⟩, hal, har⟩ := ht
    by_cases hk : k < k'
    · obtain ⟨i1, i2, i3, i4⟩ := ihl hal
      by_cases hp : (insertP l k o).2
      · have hre : insertP (node l k' s r) k o
            = (balanceNode (node (insertP l k o).1 k' s r), (insertP l k o).2) := by
          simp [insertP, hk, hp]
        rw [hre]
        by_cases hbal : height (insertP l k o).1 ≤ height r + 1
        · rw [balanceNode_of_bal _ _ _ _ hbal (by omega)]
          refine ⟨?_, ?_, ?_, ?_⟩
          · rw [avl_node]; exact ⟨⟨hbal, by omega⟩, i1, har⟩
          · simp only [height_node]; omega
          · simp only [height_node]; omega
          · intro hco; rw [hp] at hco; cases hco
        · have hh : height (insertP l k o).1 = height r + 2 := by omega
          obtain ⟨ra, rb⟩ := balance_rot_left (insertP l k o).1 k' s r i1 har hh
          refine ⟨ra, ?_, ?_, ?_⟩
          · simp only [height_node]; omega
          · simp only [height_node]; omega
          · intro hco; rw [hp] at hco; cases hco
      · have hp' : (insertP l k o).2 = false := by simpa using hp
        have hre : insertP (node l k' s r) k o
            = (node (insertP l k o).1 k' s r, (insertP l k o).2) := by
          simp [insertP, hk, hp']
        rw [hre]
        have hfh := i4 hp'
        refine ⟨?_, ?_, ?_, ?_⟩
        · rw [avl_node]; exact ⟨⟨by omega, by omega⟩, i1, har⟩
        · simp only [height_node]; omega
        · simp only [height_node]; omega
        · intro _; simp only [height_node]; omega
    · by_cases hk' : k' < k
      · obtain ⟨i1, i2, i3, i4⟩ := ihr har
        by_cases hp : (insertP r k o).2
        · have hre : insertP (node l k' s r) k o
              = (balanceNode (node l k' s (insertP r k o).1), (insertP r k o).2) := by
            simp [insertP, hk, hk', hp]
          rw [hre]
          by_cases hbal : height (insertP r k o).1 ≤ height l + 1
          · rw [balanceNode_of_bal _ _ _ _ (by omega) hbal]
            refine ⟨?_, ?_, ?_, ?_⟩
            · rw [avl_node]; exact ⟨⟨by omega, hbal⟩, hal, i1⟩
            · simp only [height_node]; omega
            · simp only [height_node]; omega
            · intro hco; rw [hp] at hco; cases hco
          · have hh : height (insertP r k o).1 = height l + 2 := by omega
            obtain ⟨ra, rb⟩ := balance_rot_right l k' s (insertP r k o).1 hal i1 hh
            refine ⟨ra, ?_, ?_, ?_⟩
            · simp only [height_node]; omega
            · simp only [height_node]; omega
            · intro hco; rw [hp] at hco; cases hco
        · have hp' : (insertP r k o).2 = false := by simpa using hp
          have hre : insertP (node l k' s r) k o
              = (node l k' s (insertP r k o).1, (insertP r k o).2) := by
            simp [insertP, hk, hk', hp']
          rw [hre]
          have hfh := i4 hp'
          refine ⟨?_, ?_, ?_, ?_⟩
          · rw [avl_node]; exact ⟨⟨by omega, by omega⟩, hal, i1⟩
          · simp only [height_node]; omega
          · simp only [height_node]; omega
          · intro _; simp only [height_node]; omega
      · have hre : insertP (node l k' s r) k o = (node l k' (s ++ [o]) r, false) := by
          simp [insertP, hk, hk']
        rw [hre]
        refine ⟨?_, ?_, ?_, ?_⟩
        · rw [avl_node]; exact ⟨⟨h1, h2⟩, hal, har⟩
        · simp only [height_node]; omega
        · simp only [height_node]; omega
        · intro _; rfl

theorem removeMin_avl (t : Tree) (h : t ≠ leaf) (ht : avl t = true) :
    avl (removeMin t).2 = true ∧ height (removeMin t).2 ≤ height t ∧
      height t ≤ height (removeMin t).2 + 1 := by
  induction t with
  | leaf => exact absurd rfl h
  | node l k s r ihl ihr =>
    rw [avl_node] at ht
    obtain ⟨⟨h1, h2⟩, hal, har⟩ := ht
    cases l with
    | leaf =>
      refine ⟨har, ?_, ?_⟩ <;> (simp only [removeMin, height_node, height]; try omega)
    | node a ka sa b =>
      obtain ⟨m1, m2, m3⟩ := ihl (by simp) hal
      simp only [height_node] at h1 h2 m2 m3
      have hre : removeMin (node (node a ka sa b) k s r)
          = ((removeMin (node a ka sa b)).1,
             balanceNode (node (removeMin (node a ka sa b)).2 k s r)) := by
        simp [removeMin]
      rw [hre]
      by_cases hbal : height r ≤ height (removeMin (node a ka sa b)).2 + 1
      · rw [balanceNode_of_bal _ _ _ _ (by omega) hbal]
        refine ⟨?_, ?_, ?_⟩
        · rw [avl_node]; exact ⟨⟨by omega, hbal⟩, m1, har⟩
        · simp only [height_node]; omega
        · simp only [height_node]; omega
      · have hh : height r = height (removeMin (node a ka sa b)).2 + 2 := by omega
        obtain ⟨ra, rb⟩ := balance_rot_right _ k s _ m1 har hh
        refine ⟨ra, ?_, ?_⟩
        · simp only [height_node]; omega
        · simp only [height_node]; omega

theorem removeP_avl (t : Tree) (k : ℚ) (ht : avl t = true) :
    avl (removeP t k).1 = true ∧ height (removeP t k).1 ≤ height t ∧
      height t ≤ height (removeP t k).1 + 1 ∧
      ((removeP t k).2 = false → (removeP t k).1 = t) := by
  induction t with
  | leaf => simp [removeP, avl, height]
  | node l k' s r ihl ihr =>
    rw [avl_node] at ht
    obtain ⟨⟨h1, h2⟩, hal, har⟩ := ht
    by_cases hk : k < k'
    · obtain ⟨i1, i2, i3, i4⟩ := ihl hal
      by_cases hp : (removeP l k).2
      · have hre : removeP (node l k' s r) k
            = (balanceNode (node (removeP l k).1 k' s r), (removeP l k).2) := by
          simp [removeP, hk, hp]
        rw [hre]
        by_cases hbal : height r ≤ height (removeP l k).1 + 1
        · rw [balanceNode_of_bal _ _ _ _ (by omega) hbal]
          refine ⟨?_, ?_, ?_, ?_⟩
          · rw [avl_node]; exact ⟨⟨by omega, hbal⟩, i1, har⟩
          · simp only [height_node]; omega
          · simp only [height_node]; omega
          · intro hco; rw [hp] at hco; cases hco
        · have hh : height r = height (removeP l k).1 + 2 := by omega
          obtain ⟨ra, rb⟩ := balance_rot_right _ k' s _ i1 har hh
          refine ⟨ra, ?_, ?_, ?_⟩
          · simp only [height_node]; omega
          · simp only [height_node]; omega
          · intro hco; rw [hp] at hco; cases hco
      · have hp' : (removeP l k).2 = false := by simpa using hp
        have hre : removeP (node l k' s r) k
            = (node (removeP l k).1 k' s r, (removeP l k).2) := by
          simp [removeP, hk, hp']
        rw [hre, i4 hp']
        refine ⟨?_, le_refl _, Nat.le_succ _, fun _ => rfl⟩
        rw [avl_node]; exact ⟨⟨h1, h2⟩, hal, har⟩
    · by_cases hk' : k' < k
      · obtain ⟨i1, i2, i3, i4⟩ := ihr har
        by_cases hp : (removeP r k).2
        · have hre : removeP (node l k' s r) k
              = (balanceNode (node l k' s (removeP r k).1), (removeP r k).2) := by
            simp [removeP, hk, hk', hp]
          rw [hre]
          by_cases hbal : height l ≤ height (removeP r k).1 + 1
          · rw [balanceNode_of_bal _ _ _ _ hbal (by omega)]
            refine ⟨?_, ?_, ?_, ?_⟩
            · rw [avl_node]; exact ⟨⟨hbal, by omega⟩, hal, i1⟩
            · simp only [height_node]; omega
            · simp only [height_node]; omega
            · intro hco; rw [hp] at hco; cases hco
          · have hh : height l = height (removeP r k).1 + 2 := by omega
            obtain ⟨ra, rb⟩ := balance_rot_left l k' s _ hal i1 hh
            refine ⟨ra, ?_, ?_, ?_⟩
            · simp only [height_node]; omega
            · simp only [height_node]; omega
            · intro hco; rw [hp] at hco; cases hco
        · have hp' : (removeP r k).2 = false := by simpa using hp
          have hre : removeP (node l k' s r) k
              = (node l k' s (removeP r k).1, (removeP r k).2) := by
            simp [removeP, hk, hk', hp']
          rw [hre, i4 hp']
          refine ⟨?_, le_refl _, Nat.le_succ _, fun _ => rfl⟩
          rw [avl_node]; exact ⟨⟨h1, h2⟩, hal, har⟩
      · cases l with
        | leaf =>
          have hre : removeP (node leaf k' s r) k = (r, true) := by
            simp [removeP, hk, hk']
          rw [hre]
          refine ⟨har, ?_, ?_, ?_⟩
          · simp only [height_node, height]; omega
          · simp only [height_node, height]; omega
          · intro hco; cases hco
        | node la ka sa lb =>
          cases r with
          | leaf =>
            have hre : removeP (node (node la ka sa lb) k' s leaf) k
                = (node la ka sa lb, true) := by
              simp [removeP, hk, hk']
            rw [hre]
            refine ⟨hal, ?_, ?_, ?_⟩
            · simp only [height_node, height]; omega
            · simp only [height_node, height]; omega
            · intro hco; cases hco
          | node ra kra sra rb =>
            obtain ⟨m1, m2, m3⟩ := removeMin_avl (node ra kra sra rb) (by simp) har
            have e1 : height (node la ka sa lb) = max (height la) (height lb) + 1 := rfl
            have e2 : height (node ra kra sra rb) = max (height ra) (height rb) + 1 := rfl
            have hre : removeP (node (node la ka sa lb) k' s (node ra kra sra rb)) k
                = (balanceNode (node (node la ka sa lb)
                    (removeMin (node ra kra sra rb)).1.1
                    (removeMin (node ra kra sra rb)).1.2
                    (removeMin (node ra kra sra rb)).2), true) := by
              simp [removeP, hk, hk']
            rw [hre]
            by_cases hbal : height (node la ka sa lb)
                ≤ height (removeMin (node ra kra sra rb)).2 + 1
            · rw [balanceNode_of_bal _ _ _ _ hbal (by omega)]
              refine ⟨?_, ?_, ?_, ?_⟩
              · rw [avl_node]; exact ⟨⟨hbal, by omega⟩, hal, m1⟩
              · simp only [height_node]; omega
              · simp only [height_node]; omega
              · intro hco; cases hco
            · have hh : height (node la ka sa lb)
                  = height (removeMin (node ra kra sra rb)).2 + 2 := by omega
              obtain ⟨ra', rb'⟩ := balance_rot_left _ _ _ _ hal m1 hh
              refine ⟨ra', ?_, ?_, ?_⟩
              · simp only [height_node]; omega
              · simp only [height_node]; omega
              · intro hco; cases hco

theorem applyOp_avl (t : Tree) (op : Op) (ht : avl t = true) :
    avl (applyOp t op) = true := by
  cases op with
  | ins k o => exact (insertP_avl t k o ht).1
  | del k => exact (removeP_avl t k ht).1

theorem foldl_applyOp_avl (ops : List Op) (t : Tree) (ht : avl t = true) :
    avl (ops.foldl applyOp t) = true := by
  induction ops generalizing t with
  | nil => exact ht
  | cons op ops ih => exact ih _ (applyOp_avl t op ht)

theorem applyOps_avl (ops : List Op) : avl (applyOps ops) = true :=
  foldl_applyOp_avl ops leaf rfl

theorem avl_subtreeAt (t u : Tree) (p : Path) (ht : avl t = true)
    (h : subtreeAt t p = some u) : avl u = true := by
  induction p generalizing t with
  | nil => cases t <;> (simp [subtreeAt] at h; rwa [← h])
  | cons d p ih =>
    cases t with
    | leaf => cases h
    | node l k s r =>
      rw [avl_node] at ht
      cases d with
      | L => exact ih l ht.2.1 h
      | R => exact ih r ht.2.2 h

/-- C3: after every finite sequence of insert and remove operations starting
from the empty tree, every node of the resulting AVL tree (every subtree
reached by some path) has its childrens' heights differing by at most one,
i.e. its balance factor lies in the interval from -1 to 1. -/
theorem claim_C3 (ops : List Op) (p : Path) (l : Tree) (k : ℚ)
    (s : List Order) (r : Tree)
    (h : subtreeAt (applyOps ops) p = some (node l k s r)) :
    -1 ≤ bf (node l k s r) ∧ bf (node l k s r) ≤ 1 := by
  have ha := avl_subtreeAt (applyOps ops) (node l k s r) p (applyOps_avl ops) h
  rw [avl_node] at ha
  simp only [bf]
  omega

/-- Witness for C3 at a concrete run: three ascending inserts (which force a
rotation) produce a tree whose root is the node with key 2; its balance
factor is within the interval. -/
theorem claim_C3_witness :
    -1 ≤ bf (node (node leaf 1 [⟨1, .Bids, 1, 1, 0⟩] leaf) 2 [⟨2, .Bids, 2, 1, 0⟩]
          (node leaf 3 [⟨3, .Bids, 3, 1, 0⟩] leaf)) ∧
      bf (node (node leaf 1 [⟨1, .Bids, 1, 1, 0⟩] leaf) 2 [⟨2, .Bids, 2, 1, 0⟩]
          (node leaf 3 [⟨3, .Bids, 3, 1, 0⟩] leaf)) ≤ 1 :=
  claim_C3
    [.ins 1 ⟨1, .Bids, 1, 1, 0⟩, .ins 2 ⟨2, .Bids, 2, 1, 0⟩, .ins 3 ⟨3, .Bids, 3, 1, 0⟩]
    [] _ _ _ _ (by decide)


/-!
In-order contents: the rebalancing step permutes links but preserves the
in-order association list, insertion of an absent key inserts its pair in
key order, appending to a present key maps its entry, and removal erases
its entry (claims C4 and C7).
-/

theorem kvList_rotateLeft (t : Tree) : kvList (rotateLeft t) = kvList t := by
  match t with
  | leaf => rfl
  | node l k s leaf => rfl
  | node l k s (node rl k' s' rr) => simp [rotateLeft, kvList]

theorem kvList_rotateRight (t : Tree) : kvList (rotateRight t) = kvList t := by
  match t with
  | leaf => rfl
  | node leaf k s r => rfl
  | node (node ll k' s' lr) k s r => simp [rotateRight, kvList]

theorem kvList_balanceNode (t : Tree) : kvList (balanceNode t) = kvList t := by
  cases t with
  | leaf => rfl
  | node l k s r =>
    simp only [balanceNode]
    split_ifs <;>
      simp [kvList_rotateLeft, kvList_rotateRight, kvList]

theorem keys_eq_map_fst (t : Tree) : keys t = (kvList t).map Prod.fst := by
  induction t with
  | leaf => rfl
  | node l k s r ihl ihr => simp [keys, kvList, ihl, ihr]

theorem bst_node (l : Tree) (k : ℚ) (s : List Order) (r : Tree) :
    bst (node l k s r) = true ↔
      (∀ x ∈ keys l, x < k) ∧ (∀ x ∈ keys r, k < x)
        ∧ bst l = true ∧ bst r = true := by
  simp [bst, Bool.and_eq_true, decide_eq_true_eq, List.all_eq_true, and_assoc]

theorem keys_node (l : Tree) (k : ℚ) (s : List Order) (r : Tree) :
    keys (node l k s r) = keys l ++ k :: keys r := rfl

theorem bst_iff_sorted (t : Tree) :
    bst t = true ↔ (keys t).Sorted (· < ·) := by
  induction t with
  | leaf => simp [bst, keys, List.Sorted]
  | node l k s r ihl ihr =>
    rw [bst_node, keys_node, ihl, ihr]
    unfold List.Sorted
    rw [List.pairwise_append, List.pairwise_cons]
    constructor
    · rintro ⟨hlk, hkr, hl, hr⟩
      refine ⟨hl, ⟨hkr, hr⟩, ?_⟩
      intro a ha b hb
      rcases List.mem_cons.mp hb with hb | hb
      · rw [hb]; exact hlk a ha
      · exact lt_trans (hlk a ha) (hkr b hb)
    · rintro ⟨hl, ⟨hkr, hr⟩, hcross⟩
      exact ⟨fun a ha => hcross a ha k (List.mem_cons_self _ _), hkr, hl, hr⟩

theorem mem_keys_of_get? (t : Tree) (k : ℚ) (s : List Order)
    (h : get? t k = some s) : k ∈ keys t := by
  induction t with
  | leaf => cases h
  | node l k' s' r ihl ihr =>
    rw [keys_node]
    by_cases hk : k < k'
    · simp only [get?, if_pos hk] at h
      exact List.mem_append_left _ (ihl h)
    · by_cases hk' : k' < k
      · simp only [get?, if_neg hk, if_pos hk'] at h
        exact List.mem_append_right _ (List.mem_cons_of_mem _ (ihr h))
      · have : k = k' := le_antisymm (not_lt.mp hk') (not_lt.mp hk)
        rw [this]
        exact List.mem_append_right _ (List.mem_cons_self _ _)

theorem get?_of_not_mem (t : Tree) (k : ℚ) (h : k ∉ keys t) :
    get? t k = none := by
  cases hg : get? t k with
  | none => rfl
  | some s => exact absurd (mem_keys_of_get? t k s hg) h

theorem get?_isSome_of_mem (t : Tree) (k : ℚ) (ht : bst t = true)
    (h : k ∈ keys t) : (get? t k).isSome = true := by
  induction t with
  | leaf => cases h
  | node l k' s' r ihl ihr =>
    rw [bst_node] at ht
    obtain ⟨hlk, hkr, hl, hr⟩ := ht
    rw [keys_node] at h
    by_cases hk : k < k'
    · have hml : k ∈ keys l := by
        rcases List.mem_append.mp h with hm | hm
        · exact hm
        · rcases List.mem_cons.mp hm with hm | hm
          · exact absurd hm (ne_of_lt hk)
          · exact absurd hk (not_lt.mpr (le_of_lt (hkr k hm)))
      simpa only [get?, if_pos hk] using ihl hl hml
    · by_cases hk' : k' < k
      · have hmr : k ∈ keys r := by
          rcases List.mem_append.mp h with hm | hm
          · exact absurd hk' (not_lt.mpr (le_of_lt (hlk k hm)))
          · rcases List.mem_cons.mp hm with hm | hm
            · exact absurd hm.symm (ne_of_lt hk')
            · exact hm
        simpa only [get?, if_neg hk, if_pos hk'] using ihr hr hmr
      · simp [get?, if_neg hk, if_neg hk']


theorem insertKV_append_left (k : ℚ) (s : List Order) (k' : ℚ) (s' : List Order)
    (xs ys : List (ℚ × List Order)) (hk : k < k') :
    insertKV k s (xs ++ (k', s') :: ys) = insertKV k s xs ++ (k', s') :: ys := by
  induction xs with
  | nil => simp [insertKV, if_pos hk]
  | cons e t ih =>
    obtain ⟨a, b⟩ := e
    by_cases ha : k < a
    · simp [insertKV, if_pos ha]
    · simp [insertKV, if_neg ha, ih]

theorem insertKV_append_right (k : ℚ) (s : List Order) (k' : ℚ) (s' : List Order)
    (xs ys : List (ℚ × List Order)) (hk' : k' < k)
    (hxs : ∀ e ∈ xs, Prod.fst e < k) :
    insertKV k s (xs ++ (k', s') :: ys) = xs ++ (k', s') :: insertKV k s ys := by
  induction xs with
  | nil => simp [insertKV, if_neg (not_lt.mpr (le_of_lt hk'))]
  | cons e t ih =>
    obtain ⟨a, b⟩ := e
    have ha : ¬ k < a := not_lt.mpr (le_of_lt (hxs (a, b) (List.mem_cons_self _ _)))
    simp only [List.cons_append, insertKV, if_neg ha]
    exact congrArg (List.cons (a, b)) (ih (fun e he => hxs e (List.mem_cons_of_mem _ he)))

theorem mem_map_fst_insertKV (k x : ℚ) (s : List Order)
    (xs : List (ℚ × List Order)) (h : x ∈ (insertKV k s xs).map Prod.fst) :
    x = k ∨ x ∈ xs.map Prod.fst := by
  induction xs with
  | nil => simpa [insertKV] using h
  | cons e t ih =>
    obtain ⟨a, b⟩ := e
    by_cases ha : k < a
    · simp only [insertKV, if_pos ha] at h
      simpa using h
    · simp only [insertKV, if_neg ha, List.map_cons, List.mem_cons] at h
      rcases h with h | h
      · right; simp [h]
      · rcases ih h with h | h
        · exact Or.inl h
        · right; simp [h]

theorem sorted_insertKV (k : ℚ) (s : List Order) (xs : List (ℚ × List Order))
    (hs : (xs.map Prod.fst).Sorted (· < ·))
    (habs : ∀ e ∈ xs, Prod.fst e ≠ k) :
    ((insertKV k s xs).map Prod.fst).Sorted (· < ·) := by
  induction xs with
  | nil => simp [insertKV, List.Sorted]
  | cons e t ih =>
    obtain ⟨a, b⟩ := e
    simp only [List.map_cons, List.sorted_cons] at hs
    by_cases ha : k < a
    · simp only [insertKV, if_pos ha, List.map_cons, List.sorted_cons]
      refine ⟨?_, hs.1, hs.2⟩
      intro x hx
      rcases List.mem_cons.mp hx with hx | hx
      · rw [hx]; exact ha
      · exact lt_trans ha (hs.1 x hx)
    · have hak : a < k := by
        rcases lt_trichotomy a k with h | h | h
        · exact h
        · exact absurd h (habs (a, b) (List.mem_cons_self _ _))
        · exact absurd h ha
      simp only [insertKV, if_neg ha, List.map_cons, List.sorted_cons]
      refine ⟨?_, ih hs.2 (fun e he => habs e (List.mem_cons_of_mem _ he))⟩
      intro x hx
      rcases mem_map_fst_insertKV k x s t hx with h | h
      · rw [h]; exact hak
      · exact hs.1 x h

theorem mapAppendAt_eq_self (k : ℚ) (o : Order) (xs : List (ℚ × List Order))
    (h : ∀ e ∈ xs, Prod.fst e ≠ k) :
    xs.map (fun e => if e.1 = k then (e.1, e.2 ++ [o]) else e) = xs := by
  induction xs with
  | nil => rfl
  | cons e t ih =>
    rw [List.map_cons, if_neg (h e (List.mem_cons_self _ _)),
      ih (fun e he => h e (List.mem_cons_of_mem _ he))]

theorem eraseKV_of_no_match (k : ℚ) (xs : List (ℚ × List Order))
    (h : ∀ e ∈ xs, Prod.fst e ≠ k) : eraseKV k xs = xs := by
  induction xs with
  | nil => rfl
  | cons e t ih =>
    obtain ⟨a, b⟩ := e
    have : k ≠ a := fun hk => (h (a, b) (List.mem_cons_self _ _)) hk.symm
    rw [show eraseKV k ((a, b) :: t) = if k = a then t else (a, b) :: eraseKV k t from rfl,
      if_neg this, ih (fun e he => h e (List.mem_cons_of_mem _ he))]

theorem eraseKV_append_left (k k' : ℚ) (s' : List Order)
    (xs ys : List (ℚ × List Order)) (hne : k ≠ k')
    (hys : ∀ e ∈ ys, Prod.fst e ≠ k) :
    eraseKV k (xs ++ (k', s') :: ys) = eraseKV k xs ++ (k', s') :: ys := by
  induction xs with
  | nil =>
    simp only [List.nil_append, eraseKV, if_neg hne]
    rw [eraseKV_of_no_match k ys hys]
  | cons e t ih =>
    obtain ⟨a, b⟩ := e
    by_cases ha : k = a
    · simp [eraseKV, if_pos ha]
    · simp only [List.cons_append, eraseKV, if_neg ha]
      exact congrArg (List.cons (a, b)) ih

theorem eraseKV_append_hit (k : ℚ) (s : List Order)
    (xs ys : List (ℚ × List Order)) (hxs : ∀ e ∈ xs, Prod.fst e ≠ k) :
    eraseKV k (xs ++ (k, s) :: ys) = xs ++ ys := by
  induction xs with
  | nil => simp [eraseKV]
  | cons e t ih =>
    obtain ⟨a, b⟩ := e
    have : k ≠ a := fun hk => (hxs (a, b) (List.mem_cons_self _ _)) hk.symm
    simp only [List.cons_append, eraseKV, if_neg this]
    exact congrArg (List.cons (a, b)) (ih (fun e he => hxs e (List.mem_cons_of_mem _ he)))

theorem eraseKV_sublist (k : ℚ) (xs : List (ℚ × List Order)) :
    (eraseKV k xs).Sublist xs := by
  induction xs with
  | nil => exact List.Sublist.refl _
  | cons e t ih =>
    obtain ⟨a, b⟩ := e
    by_cases ha : k = a
    · rw [show eraseKV k ((a, b) :: t) = if k = a then t else (a, b) :: eraseKV k t from rfl,
        if_pos ha]
      exact List.sublist_cons_of_sublist _ (List.Sublist.refl _)
    · rw [show eraseKV k ((a, b) :: t) = if k = a then t else (a, b) :: eraseKV k t from rfl,
        if_neg ha]
      exact List.Sublist.cons₂ _ ih


theorem insertP_absent (t : Tree) (k : ℚ) (o : Order) (ht : bst t = true)
    (hg : get? t k = none) :
    (insertP t k o).2 = true ∧
      kvList (insertP t k o).1 = insertKV k [o] (kvList t) := by
  induction t with
  | leaf => simp [insertP, kvList, insertKV]
  | node l k' s r ihl ihr =>
    rw [bst_node] at ht
    obtain ⟨hlk, hkr, hl, hr⟩ := ht
    by_cases hk : k < k'
    · simp only [get?, if_pos hk] at hg
      obtain ⟨f1, f2⟩ := ihl hl hg
      have hre : insertP (node l k' s r) k o
          = (balanceNode (node (insertP l k o).1 k' s r), (insertP l k o).2) := by
        simp [insertP, hk, f1]
      rw [hre]
      refine ⟨f1, ?_⟩
      rw [kvList_balanceNode]
      show kvList (insertP l k o).1 ++ (k', s) :: kvList r = _
      rw [f2, show kvList (node l k' s r) = kvList l ++ (k', s) :: kvList r from rfl,
        insertKV_append_left k [o] k' s (kvList l) (kvList r) hk]
    · by_cases hk' : k' < k
      · simp only [get?, if_neg hk, if_pos hk'] at hg
        obtain ⟨f1, f2⟩ := ihr hr hg
        have hre : insertP (node l k' s r) k o
            = (balanceNode (node l k' s (insertP r k o).1), (insertP r k o).2) := by
          simp [insertP, hk, hk', f1]
        rw [hre]
        refine ⟨f1, ?_⟩
        rw [kvList_balanceNode]
        show kvList l ++ (k', s) :: kvList (insertP r k o).1 = _
        rw [f2, show kvList (node l k' s r) = kvList l ++ (k', s) :: kvList r from rfl,
          insertKV_append_right k [o] k' s (kvList l) (kvList r) hk']
        intro e he
        have : Prod.fst e ∈ keys l := by
          rw [keys_eq_map_fst]; exact List.mem_map_of_mem Prod.fst he
        exact lt_trans (hlk _ this) hk'
      · simp only [get?, if_neg hk, if_neg hk'] at hg
        cases hg
    
theorem insertP_present (t : Tree) (k : ℚ) (o : Order) (s0 : List Order)
    (ht : bst t = true) (hg : get? t k = some s0) :
    (insertP t k o).2 = false ∧
      strip (insertP t k o).1 = strip t ∧
      kvList (insertP t k o).1
        = (kvList t).map (fun e => if e.1 = k then (e.1, e.2 ++ [o]) else e) := by
  induction t with
  | leaf => cases hg
  | node l k' s r ihl ihr =>
    rw [bst_node] at ht
    obtain ⟨hlk, hkr, hl, hr⟩ := ht
    have hmapl : ∀ (h : ∀ x ∈ keys l, x ≠ k),
        (kvList l).map (fun e => if e.1 = k then (e.1, e.2 ++ [o]) else e) = kvList l := by
      intro h
      refine mapAppendAt_eq_self k o (kvList l) ?_
      intro e he
      refine h _ ?_
      rw [keys_eq_map_fst]; exact List.mem_map_of_mem Prod.fst he
    have hmapr : ∀ (h : ∀ x ∈ keys r, x ≠ k),
        (kvList r).map (fun e => if e.1 = k then (e.1, e.2 ++ [o]) else e) = kvList r := by
      intro h
      refine mapAppendAt_eq_self k o (kvList r) ?_
      intro e he
      refine h _ ?_
      rw [keys_eq_map_fst]; exact List.mem_map_of_mem Prod.fst he
    by_cases hk : k < k'
    · simp only [get?, if_pos hk] at hg
      obtain ⟨f1, f2, f3⟩ := ihl hl hg
      have hre : insertP (node l k' s r) k o
          = (node (insertP l k o).1 k' s r, (insertP l k o).2) := by
        simp [insertP, hk, f1]
      rw [hre]
      refine ⟨f1, ?_, ?_⟩
      · show node (strip (insertP l k o).1) k' [] (strip r) = _
        rw [f2]; rfl
      · show kvList (insertP l k o).1 ++ (k', s) :: kvList r = _
        rw [f3, show kvList (node l k' s r) = kvList l ++ (k', s) :: kvList r from rfl,
          List.map_append, List.map_cons]
        rw [if_neg (show ¬ (k', s).1 = k from ne_of_gt hk)]
        rw [hmapr (fun x hx => ne_of_gt (lt_trans hk (hkr x hx)))]
    · by_cases hk' : k' < k
      · simp only [get?, if_neg hk, if_pos hk'] at hg
        obtain ⟨f1, f2, f3⟩ := ihr hr hg
        have hre : insertP (node l k' s r) k o
            = (node l k' s (insertP r k o).1, (insertP r k o).2) := by
          simp [insertP, hk, hk', f1]
        rw [hre]
        refine ⟨f1, ?_, ?_⟩
        · show node (strip l) k' [] (strip (insertP r k o).1) = _
          rw [f2]; rfl
        · show kvList l ++ (k', s) :: kvList (insertP r k o).1 = _
          rw [f3, show kvList (node l k' s r) = kvList l ++ (k', s) :: kvList r from rfl,
            List.map_append, List.map_cons]
          rw [if_neg (show ¬ (k', s).1 = k from ne_of_lt hk')]
          rw [hmapl (fun x hx => ne_of_lt (lt_trans (hlk x hx) hk'))]
      · have hkk : k = k' := le_antisymm (not_lt.mp hk') (not_lt.mp hk)
        simp only [get?, if_neg hk, if_neg hk'] at hg
        have hre : insertP (node l k' s r) k o = (node l k' (s ++ [o]) r, false) := by
          simp [insertP, hk, hk']
        rw [hre]
        refine ⟨rfl, rfl, ?_⟩
        show kvList l ++ (k', s ++ [o]) :: kvList r = _
        rw [show kvList (node l k' s r) = kvList l ++ (k', s) :: kvList r from rfl,
          List.map_append, List.map_cons]
        rw [if_pos (show (k', s).1 = k from hkk.symm)]
        rw [hmapl (fun x hx => ne_of_lt (hkk ▸ hlk x hx)),
          hmapr (fun x hx => ne_of_gt (hkk ▸ hkr x hx))]

theorem removeMin_kvList (t : Tree) (h : t ≠ leaf) :
    kvList t = (removeMin t).1 :: kvList (removeMin t).2 := by
  induction t with
  | leaf => exact absurd rfl h
  | node l k s r ihl ihr =>
    cases l with
    | leaf => simp [removeMin, kvList]
    | node a ka sa b =>
      have hre : removeMin (node (node a ka sa b) k s r)
          = ((removeMin (node a ka sa b)).1,
             balanceNode (node (removeMin (node a ka sa b)).2 k s r)) := by
        simp [removeMin]
      rw [hre]
      show kvList (node a ka sa b) ++ (k, s) :: kvList r = _
      rw [ihl (by simp)]
      simp only [kvList_balanceNode]
      rfl

theorem eraseKV_append_right (k k' : ℚ) (s' : List Order)
    (xs ys : List (ℚ × List Order)) (hne : k ≠ k')
    (hxs : ∀ e ∈ xs, Prod.fst e ≠ k) :
    eraseKV k (xs ++ (k', s') :: ys) = xs ++ (k', s') :: eraseKV k ys := by
  induction xs with
  | nil => simp [eraseKV, if_neg hne]
  | cons e t ih =>
    obtain ⟨a, b⟩ := e
    have : k ≠ a := fun hk => (hxs (a, b) (List.mem_cons_self _ _)) hk.symm
    simp only [List.cons_append, eraseKV, if_neg this]
    exact congrArg (List.cons (a, b)) (ih (fun e he => hxs e (List.mem_cons_of_mem _ he)))

theorem removeP_kvList (t : Tree) (k : ℚ) (ht : bst t = true) :
    kvList (removeP t k).1 = eraseKV k (kvList t) := by
  induction t with
  | leaf => simp [removeP, kvList, eraseKV]
  | node l k' s r ihl ihr =>
    rw [bst_node] at ht
    obtain ⟨hlk, hkr, hl, hr⟩ := ht
    have hxl : ∀ e ∈ kvList l, Prod.fst e < k' := by
      intro e he
      refine hlk _ ?_
      rw [keys_eq_map_fst]; exact List.mem_map_of_mem Prod.fst he
    have hxr : ∀ e ∈ kvList r, k' < Prod.fst e := by
      intro e he
      refine hkr _ ?_
      rw [keys_eq_map_fst]; exact List.mem_map_of_mem Prod.fst he
    by_cases hk : k < k'
    · have hstep : kvList (removeP (node l k' s r) k).1
          = kvList (removeP l k).1 ++ (k', s) :: kvList r := by
        by_cases hp : (removeP l k).2
        · have hre : removeP (node l k' s r) k
              = (balanceNode (node (removeP l k).1 k' s r), (removeP l k).2) := by
            simp [removeP, hk, hp]
          rw [hre]; rw [kvList_balanceNode]; rfl
        · have hp' : (removeP l k).2 = false := by simpa using hp
          have hre : removeP (node l k' s r) k
              = (node (removeP l k).1 k' s r, (removeP l k).2) := by
            simp [removeP, hk, hp']
          rw [hre]
          rfl
      rw [hstep, ihl hl,
        show kvList (node l k' s r) = kvList l ++ (k', s) :: kvList r from rfl]
      rw [eraseKV_append_left k k' s (kvList l) (kvList r) (ne_of_lt hk)
        (fun e he => ne_of_gt (lt_trans hk (hxr e he)))]
    · by_cases hk' : k' < k
      · have hstep : kvList (removeP (node l k' s r) k).1
            = kvList l ++ (k', s) :: kvList (removeP r k).1 := by
          by_cases hp : (removeP r k).2
          · have hre : removeP (node l k' s r) k
                = (balanceNode (node l k' s (removeP r k).1), (removeP r k).2) := by
              simp [removeP, hk, hk', hp]
            rw [hre]; rw [kvList_balanceNode]; rfl
          · have hp' : (removeP r k).2 = false := by simpa using hp
            have hre : removeP (node l k' s r) k
                = (node l k' s (removeP r k).1, (removeP r k).2) := by
              simp [removeP, hk, hk', hp']
            rw [hre]
            rfl
        rw [hstep, ihr hr,
          show kvList (node l k' s r) = kvList l ++ (k', s) :: kvList r from rfl]
        rw [eraseKV_append_right k k' s (kvList l) (kvList r) (ne_of_gt hk')
          (fun e he => ne_of_lt (lt_trans (hxl e he) hk'))]
      · have hkk : k = k' := le_antisymm (not_lt.mp hk') (not_lt.mp hk)
        cases l with
        | leaf =>
          have hre : removeP (node leaf k' s r) k = (r, true) := by
            simp [removeP, hk, hk']
          rw [hre,
            show kvList (node leaf k' s r) = (k', s) :: kvList r from rfl,
            show eraseKV k ((k', s) :: kvList r)
              = if k = k' then kvList r else (k', s) :: eraseKV k (kvList r) from rfl,
            if_pos hkk]
        | node la ka sa lb =>
          cases r with
          | leaf =>
            have hre : removeP (node (node la ka sa lb) k' s leaf) k
                = (node la ka sa lb, true) := by
              simp [removeP, hk, hk']
            rw [hre,
              show kvList (node (node la ka sa lb) k' s leaf)
                = kvList (node la ka sa lb) ++ (k', s) :: [] from rfl]
            rw [hkk, eraseKV_append_hit k' s _ []
              (fun e he => ne_of_lt (hxl e he))]
            simp
          | node ra kra sra rb =>
            have hre : removeP (node (node la ka sa lb) k' s (node ra kra sra rb)) k
                = (balanceNode (node (node la ka sa lb)
                    (removeMin (node ra kra sra rb)).1.1
                    (removeMin (node ra kra sra rb)).1.2
                    (removeMin (node ra kra sra rb)).2), true) := by
              simp [removeP, hk, hk']
            rw [hre]
            show kvList (balanceNode (node (node la ka sa lb)
              (removeMin (node ra kra sra rb)).1.1
              (removeMin (node ra kra sra rb)).1.2
              (removeMin (node ra kra sra rb)).2)) = _
            rw [kvList_balanceNode]
            show kvList (node la ka sa lb)
                ++ ((removeMin (node ra kra sra rb)).1.1,
                    (removeMin (node ra kra sra rb)).1.2)
                :: kvList (removeMin (node ra kra sra rb)).2 = _
            rw [show ((removeMin (node ra kra sra rb)).1.1,
                  (removeMin (node ra kra sra rb)).1.2)
                = (removeMin (node ra kra sra rb)).1 from rfl,
              ← removeMin_kvList (node ra kra sra rb) (by simp)]
            rw [show kvList (node (node la ka sa lb) k' s (node ra kra sra rb))
                = kvList (node la ka sa lb) ++ (k', s) :: kvList (node ra kra sra rb)
                from rfl]
            rw [hkk, eraseKV_append_hit k' s _ _
              (fun e he => ne_of_lt (hxl e he))]


theorem bst_insertT (t : Tree) (k : ℚ) (o : Order) (ht : bst t = true) :
    bst (insertT t k o) = true := by
  cases hg : get? t k with
  | some s0 =>
    obtain ⟨_, _, f3⟩ := insertP_present t k o s0 ht hg
    rw [bst_iff_sorted] at ht ⊢
    rw [keys_eq_map_fst] at ht ⊢
    rw [show insertT t k o = (insertP t k o).1 from rfl, f3]
    have hmf : ((kvList t).map
          (fun e => if e.1 = k then (e.1, e.2 ++ [o]) else e)).map Prod.fst
        = (kvList t).map Prod.fst := by
      rw [List.map_map]
      refine List.map_congr_left ?_
      intro e _
      by_cases h : e.1 = k <;> simp [h]
    rw [hmf]
    exact ht
  | none =>
    have habs : ∀ e ∈ kvList t, Prod.fst e ≠ k := by
      intro e he hek
      have hmem : k ∈ keys t := by
        rw [keys_eq_map_fst]
        exact hek ▸ List.mem_map_of_mem Prod.fst he
      have hsome := get?_isSome_of_mem t k ht hmem
      rw [hg] at hsome
      cases hsome
    obtain ⟨_, f2⟩ := insertP_absent t k o ht hg
    have ht' := ht
    rw [bst_iff_sorted] at ht' ⊢
    rw [keys_eq_map_fst] at ht' ⊢
    rw [show insertT t k o = (insertP t k o).1 from rfl, f2]
    exact sorted_insertKV k [o] (kvList t) ht' habs

theorem bst_removeT (t : Tree) (k : ℚ) (ht : bst t = true) :
    bst (removeT t k) = true := by
  have h1 := removeP_kvList t k ht
  rw [bst_iff_sorted] at ht ⊢
  rw [keys_eq_map_fst] at ht ⊢
  rw [show removeT t k = (removeP t k).1 from rfl, h1]
  exact List.Pairwise.sublist (List.Sublist.map Prod.fst (eraseKV_sublist k _)) ht

theorem applyOp_bst (t : Tree) (op : Op) (ht : bst t = true) :
    bst (applyOp t op) = true := by
  cases op with
  | ins k o => exact bst_insertT t k o ht
  | del k => exact bst_removeT t k ht

theorem foldl_applyOp_bst (ops : List Op) (t : Tree) (ht : bst t = true) :
    bst (ops.foldl applyOp t) = true := by
  induction ops generalizing t with
  | nil => exact ht
  | cons op ops ih => exact ih _ (applyOp_bst t op ht)

theorem applyOps_bst (ops : List Op) : bst (applyOps ops) = true :=
  foldl_applyOp_bst ops leaf rfl

theorem get?_mem_kvList (t : Tree) (k : ℚ) (s : List Order)
    (h : get? t k = some s) : (k, s) ∈ kvList t := by
  induction t with
  | leaf => cases h
  | node l k' s' r ihl ihr =>
    by_cases hk : k < k'
    · simp only [get?, if_pos hk] at h
      exact List.mem_append_left _ (ihl h)
    · by_cases hk' : k' < k
      · simp only [get?, if_neg hk, if_pos hk'] at h
        exact List.mem_append_right _ (List.mem_cons_of_mem _ (ihr h))
      · have hkk : k = k' := le_antisymm (not_lt.mp hk') (not_lt.mp hk)
        simp only [get?, if_neg hk, if_neg hk'] at h
        have hs : s' = s := by injection h
        rw [hkk, ← hs]
        exact List.mem_append_right _ (List.mem_cons_self _ _)

theorem get?_eq_of_kvList_mem (t : Tree) (k : ℚ) (s : List Order)
    (ht : bst t = true) (h : (k, s) ∈ kvList t) : get? t k = some s := by
  induction t with
  | leaf => cases h
  | node l k' s' r ihl ihr =>
    rw [bst_node] at ht
    obtain ⟨hlk, hkr, hl, hr⟩ := ht
    rcases List.mem_append.mp h with hm | hm
    · have hkl : k < k' := by
        refine hlk k ?_
        rw [keys_eq_map_fst]
        exact List.mem_map_of_mem Prod.fst hm
      simp only [get?, if_pos hkl]
      exact ihl hl hm
    · rcases List.mem_cons.mp hm with hm | hm
      · obtain ⟨h1, h2⟩ := Prod.mk.injEq .. ▸ hm
        simp only [Prod.mk.injEq] at hm
        simp [get?, hm.1, hm.2]
      · have hkg : k' < k := by
          refine hkr k ?_
          rw [keys_eq_map_fst]
          exact List.mem_map_of_mem Prod.fst hm
        simp only [get?, if_neg (not_lt.mpr (le_of_lt hkg)), if_pos hkg]
        exact ihr hr hm

theorem mem_insertKV_self (k : ℚ) (s : List Order) (xs : List (ℚ × List Order)) :
    (k, s) ∈ insertKV k s xs := by
  induction xs with
  | nil => simp [insertKV]
  | cons e t ih =>
    obtain ⟨a, b⟩ := e
    by_cases ha : k < a
    · simp [insertKV, if_pos ha]
    · simp only [insertKV, if_neg ha]
      exact List.mem_cons_of_mem _ ih

theorem size_eq_length_kvList (t : Tree) : size t = (kvList t).length := by
  induction t with
  | leaf => rfl
  | node l k s r ihl ihr => simp [size, kvList, ihl, ihr]; omega

theorem insertKV_length (k : ℚ) (s : List Order) (xs : List (ℚ × List Order)) :
    (insertKV k s xs).length = xs.length + 1 := by
  induction xs with
  | nil => rfl
  | cons e t ih =>
    obtain ⟨a, b⟩ := e
    by_cases ha : k < a
    · simp [insertKV, if_pos ha]
    · simp [insertKV, if_neg ha, ih]

/-- C7: on a BST, inserting at a key already present appends the order to
that node's stack and changes no tree node or link (same skeleton `strip`,
same node count) while inserting at an absent key creates exactly one new
node holding the one-element stack, placed in key order in the in-order
association list (`insertKV`), growing the node count by one. -/
theorem claim_C7 (t : Tree) (k : ℚ) (o : Order) (ht : bst t = true) :
    (∀ s0, get? t k = some s0 →
        strip (insertT t k o) = strip t ∧
        size (insertT t k o) = size t ∧
        get? (insertT t k o) k = some (s0 ++ [o])) ∧
    (get? t k = none →
        size (insertT t k o) = size t + 1 ∧
        get? (insertT t k o) k = some [o] ∧
        kvList (insertT t k o) = insertKV k [o] (kvList t)) := by
  constructor
  · intro s0 hg
    obtain ⟨f1, f2, f3⟩ := insertP_present t k o s0 ht hg
    refine ⟨f2, ?_, ?_⟩
    · rw [size_eq_length_kvList, size_eq_length_kvList,
        show insertT t k o = (insertP t k o).1 from rfl, f3, List.length_map]
    · refine get?_eq_of_kvList_mem _ k (s0 ++ [o]) (bst_insertT t k o ht) ?_
      rw [show insertT t k o = (insertP t k o).1 from rfl, f3]
      have hm := get?_mem_kvList t k s0 hg
      have := List.mem_map_of_mem
        (fun e => if e.1 = k then (e.1, e.2 ++ [o]) else e) hm
      simpa using this
  · intro hg
    obtain ⟨f1, f2⟩ := insertP_absent t k o ht hg
    refine ⟨?_, ?_, f2⟩
    · rw [size_eq_length_kvList, size_eq_length_kvList,
        show insertT t k o = (insertP t k o).1 from rfl, f2, insertKV_length]
    · refine get?_eq_of_kvList_mem _ k [o] (bst_insertT t k o ht) ?_
      rw [show insertT t k o = (insertP t k o).1 from rfl, f2]
      exact mem_insertKV_self k [o] (kvList t)

/-- Witness for C7 at a concrete tree (keys 1 and 2, key 2 present, key 3
absent): both conjuncts applied. -/
theorem claim_C7_witness :
    ((∀ s0, get? (node (node leaf 1 [⟨1, .Bids, 1, 1, 0⟩] leaf) 2
          [⟨2, .Bids, 2, 1, 0⟩] leaf) 2 = some s0 →
        strip (insertT (node (node leaf 1 [⟨1, .Bids, 1, 1, 0⟩] leaf) 2
          [⟨2, .Bids, 2, 1, 0⟩] leaf) 2 ⟨9, .Bids, 2, 5, 0⟩)
          = strip (node (node leaf 1 [⟨1, .Bids, 1, 1, 0⟩] leaf) 2
          [⟨2, .Bids, 2, 1, 0⟩] leaf) ∧
        size (insertT (node (node leaf 1 [⟨1, .Bids, 1, 1, 0⟩] leaf) 2
          [⟨2, .Bids, 2, 1, 0⟩] leaf) 2 ⟨9, .Bids, 2, 5, 0⟩)
          = size (node (node leaf 1 [⟨1, .Bids, 1, 1, 0⟩] leaf) 2
          [⟨2, .Bids, 2, 1, 0⟩] leaf) ∧
        get? (insertT (node (node leaf 1 [⟨1, .Bids, 1, 1, 0⟩] leaf) 2
          [⟨2, .Bids, 2, 1, 0⟩] leaf) 2 ⟨9, .Bids, 2, 5, 0⟩) 2
          = some (s0 ++ [⟨9, .Bids, 2, 5, 0⟩])) ∧
      (get? (node (node leaf 1 [⟨1, .Bids, 1, 1, 0⟩] leaf) 2
          [⟨2, .Bids, 2, 1, 0⟩] leaf) 2 = none →
        size (insertT (node (node leaf 1 [⟨1, .Bids, 1, 1, 0⟩] leaf) 2
          [⟨2, .Bids, 2, 1, 0⟩] leaf) 2 ⟨9, .Bids, 2, 5, 0⟩)
          = size (node (node leaf 1 [⟨1, .Bids, 1, 1, 0⟩] leaf) 2
          [⟨2, .Bids, 2, 1, 0⟩] leaf) + 1 ∧
        get? (insertT (node (node leaf 1 [⟨1, .Bids, 1, 1, 0⟩] leaf) 2
          [⟨2, .Bids, 2, 1, 0⟩] leaf) 2 ⟨9, .Bids, 2, 5, 0⟩) 2
          = some [⟨9, .Bids, 2, 5, 0⟩] ∧
        kvList (insertT (node (node leaf 1 [⟨1, .Bids, 1, 1, 0⟩] leaf) 2
          [⟨2, .Bids, 2, 1, 0⟩] leaf) 2 ⟨9, .Bids, 2, 5, 0⟩)
          = insertKV 2 [⟨9, .Bids, 2, 5, 0⟩]
              (kvList (node (node leaf 1 [⟨1, .Bids, 1, 1, 0⟩] leaf) 2
                [⟨2, .Bids, 2, 1, 0⟩] leaf)))) :=
  claim_C7 (node (node leaf 1 [⟨1, .Bids, 1, 1, 0⟩] leaf) 2
    [⟨2, .Bids, 2, 1, 0⟩] leaf) 2 ⟨9, .Bids, 2, 5, 0⟩ (by decide)


/-!
The stateful iterator enumerates exactly the in-order node sequence: the
paths of `posList` form a chain under `nextPos`, starting at the left
spine and ending at the right spine, where `nextPos` returns `none`
(claims C4 and C9).
-/

theorem climb_cons_of_some (d : Dir) (p q : Path) (h : climb p = some q) :
    climb (d :: p) = some (d :: q) := by
  simp [climb, h]

theorem climb_L_of_none (p : Path) (h : climb p = none) :
    climb (Dir.L :: p) = some [] := by
  simp [climb, h]

theorem climb_R_of_none (p : Path) (h : climb p = none) :
    climb (Dir.R :: p) = none := by
  simp [climb, h]

theorem subtreeAt_leftSpine (t : Tree) (h : t ≠ leaf) :
    ∃ k s r', subtreeAt t (leftSpine t) = some (node leaf k s r') := by
  induction t with
  | leaf => exact absurd rfl h
  | node l k s r ihl ihr =>
    cases l with
    | leaf => exact ⟨k, s, r, rfl⟩
    | node a ka sa b =>
      obtain ⟨k', s', r', hh⟩ := ihl (by simp)
      exact ⟨k', s', r', hh⟩

theorem subtreeAt_rightSpine (t : Tree) (h : t ≠ leaf) :
    ∃ l' k s, subtreeAt t (rightSpine t) = some (node l' k s leaf) := by
  induction t with
  | leaf => exact absurd rfl h
  | node l k s r ihl ihr =>
    cases r with
    | leaf => exact ⟨l, k, s, rfl⟩
    | node a ka sa b =>
      obtain ⟨l', k', s', hh⟩ := ihr (by simp)
      exact ⟨l', k', s', hh⟩

theorem nextPos_rightSpine (t : Tree) (h : t ≠ leaf) :
    nextPos t (rightSpine t) = none := by
  induction t with
  | leaf => exact absurd rfl h
  | node l k s r ihl ihr =>
    cases r with
    | leaf => rfl
    | node a ka sa b =>
      have hrs : rightSpine (node l k s (node a ka sa b))
          = Dir.R :: rightSpine (node a ka sa b) := rfl
      have ih := ihr (by simp)
      rw [hrs]
      obtain ⟨l', k', s', hsub⟩ := subtreeAt_rightSpine (node a ka sa b) (by simp)
      simp only [nextPos] at ih ⊢
      rw [show subtreeAt (node l k s (node a ka sa b))
        (Dir.R :: rightSpine (node a ka sa b))
        = subtreeAt (node a ka sa b) (rightSpine (node a ka sa b)) from rfl]
      rw [hsub] at ih ⊢
      exact climb_R_of_none _ ih

theorem nextPos_cons_L (l : Tree) (k : ℚ) (s : List Order) (r : Tree)
    (p : Path) (a : Tree) (ka : ℚ) (sa : List Order) (b : Tree)
    (hv : subtreeAt l p = some (node a ka sa b)) :
    nextPos (node l k s r) (Dir.L :: p)
      = match nextPos l p with
        | some q => some (Dir.L :: q)
        | none => some [] := by
  have hs : subtreeAt (node l k s r) (Dir.L :: p) = subtreeAt l p := rfl
  simp only [nextPos, hs, hv]
  cases b with
  | node b1 b2 b3 b4 => simp
  | leaf =>
    cases hc : climb p with
    | some q => rw [climb_cons_of_some Dir.L p q hc]
    | none => rw [climb_L_of_none p hc]

theorem nextPos_cons_R (l : Tree) (k : ℚ) (s : List Order) (r : Tree)
    (p : Path) (a : Tree) (ka : ℚ) (sa : List Order) (b : Tree)
    (hv : subtreeAt r p = some (node a ka sa b)) :
    nextPos (node l k s r) (Dir.R :: p) = (nextPos r p).map (Dir.R :: ·) := by
  have hs : subtreeAt (node l k s r) (Dir.R :: p) = subtreeAt r p := rfl
  simp only [nextPos, hs, hv]
  cases b with
  | node b1 b2 b3 b4 => simp
  | leaf =>
    cases hc : climb p with
    | some q => rw [climb_cons_of_some Dir.R p q hc]; rfl
    | none => rw [climb_R_of_none p hc]; rfl

theorem posList_mem_subtreeAt (t : Tree) (p : Path) (h : p ∈ posList t) :
    ∃ l k s r, subtreeAt t p = some (node l k s r) := by
  induction t generalizing p with
  | leaf => cases h
  | node l k s r ihl ihr =>
    rcases List.mem_append.mp h with hm | hm
    · obtain ⟨q, hq, rfl⟩ := List.mem_map.mp hm
      exact ihl q hq
    · rcases List.mem_cons.mp hm with hm | hm
      · rw [hm]; exact ⟨l, k, s, r, rfl⟩
      · obtain ⟨q, hq, rfl⟩ := List.mem_map.mp hm
        exact ihr q hq

theorem posList_ne_nil (t : Tree) (h : t ≠ leaf) : posList t ≠ [] := by
  cases t with
  | leaf => exact absurd rfl h
  | node l k s r => simp [posList]

theorem posList_head (t : Tree) (h : t ≠ leaf) :
    (posList t).head? = some (leftSpine t) := by
  induction t with
  | leaf => exact absurd rfl h
  | node l k s r ihl ihr =>
    cases l with
    | leaf => simp [posList, leftSpine]
    | node a ka sa b =>
      have ih := ihl (by simp)
      have hne := posList_ne_nil (node a ka sa b) (by simp)
      rw [show posList (node (node a ka sa b) k s r)
        = (posList (node a ka sa b)).map (Dir.L :: ·)
          ++ [] :: (posList r).map (Dir.R :: ·) from rfl]
      rw [show leftSpine (node (node a ka sa b) k s r)
        = Dir.L :: leftSpine (node a ka sa b) from rfl]
      cases hpl : posList (node a ka sa b) with
      | nil => exact absurd hpl hne
      | cons p0 ps =>
        rw [hpl] at ih
        simp at ih
        simp [ih]

theorem getLast?_list_map {α β : Type} (f : α → β) (l : List α) :
    (l.map f).getLast? = (l.getLast?).map f := by
  induction l with
  | nil => rfl
  | cons a l ih =>
    cases l with
    | nil => rfl
    | cons b l2 =>
      rw [List.map_cons, List.map_cons, List.getLast?_cons_cons,
        ← List.map_cons f b l2, ih, List.getLast?_cons_cons]

theorem posList_getLast (t : Tree) (h : t ≠ leaf) :
    (posList t).getLast? = some (rightSpine t) := by
  induction t with
  | leaf => exact absurd rfl h
  | node l k s r ihl ihr =>
    cases r with
    | leaf =>
      rw [show posList (node l k s leaf)
        = (posList l).map (Dir.L :: ·) ++ [] :: [] from rfl]
      rw [List.getLast?_append_cons]
      rfl
    | node a ka sa b =>
      have ih := ihr (by simp)
      rw [show posList (node l k s (node a ka sa b))
        = (posList l).map (Dir.L :: ·)
          ++ [] :: (posList (node a ka sa b)).map (Dir.R :: ·) from rfl]
      rw [List.getLast?_append_cons]
      rw [show rightSpine (node l k s (node a ka sa b))
        = Dir.R :: rightSpine (node a ka sa b) from rfl]
      cases hpl : posList (node a ka sa b) with
      | nil => exact absurd hpl (posList_ne_nil _ (by simp))
      | cons p0 ps =>
        rw [hpl] at ih
        rw [List.map_cons, List.getLast?_cons_cons, ← List.map_cons,
          getLast?_list_map, ih]
        rfl


theorem chain_imp_mem {α : Type} {R S : α → α → Prop} :
    ∀ (l : List α), (∀ a ∈ l, ∀ b ∈ l, R a b → S a b) → l.Chain' R → l.Chain' S := by
  intro l
  induction l with
  | nil => intro _ _; exact List.chain'_nil
  | cons a l ih =>
    intro hmem hch
    cases l with
    | nil => exact List.chain'_singleton a
    | cons b l2 =>
      rw [List.chain'_cons] at hch ⊢
      refine ⟨hmem a (by simp) b (by simp) hch.1, ?_⟩
      exact ih (fun x hx y hy => hmem x (by simp [hx]) y (by simp [hy])) hch.2

theorem head?_list_map {α β : Type} (f : α → β) (l : List α) :
    (l.map f).head? = (l.head?).map f := by
  cases l <;> rfl

theorem chain_posList (t : Tree) :
    List.Chain' (fun p q => nextPos t p = some q) (posList t) := by
  induction t with
  | leaf => simp [posList]
  | node l k s r ihl ihr =>
    rw [show posList (node l k s r)
      = (posList l).map (Dir.L :: ·) ++ [] :: (posList r).map (Dir.R :: ·) from rfl]
    rw [List.chain'_append]
    refine ⟨?_, ?_, ?_⟩
    · rw [List.chain'_map]
      refine chain_imp_mem _ ?_ ihl
      intro a ha b hb hab
      obtain ⟨la, ka2, sa2, ra2, hv⟩ := posList_mem_subtreeAt l a ha
      rw [nextPos_cons_L l k s r a la ka2 sa2 ra2 hv, hab]
    · refine List.chain'_cons'.mpr ⟨?_, ?_⟩
      · intro h hh
        rw [head?_list_map] at hh
        cases r with
        | leaf => simp [posList] at hh
        | node a2 b2 c2 d2 =>
          rw [posList_head _ (by simp)] at hh
          simp only [Option.map_some', Option.mem_def, Option.some.injEq] at hh
          rw [← hh]
          rfl
      · rw [List.chain'_map]
        refine chain_imp_mem _ ?_ ihr
        intro a ha b hb hab
        obtain ⟨la, ka2, sa2, ra2, hv⟩ := posList_mem_subtreeAt r a ha
        rw [nextPos_cons_R l k s r a la ka2 sa2 ra2 hv, hab]
        rfl
    · intro x hx y hy
      simp only [List.head?_cons, Option.mem_def, Option.some.injEq] at hy
      cases l with
      | leaf => simp [posList] at hx
      | node a2 b2 c2 d2 =>
        rw [getLast?_list_map, posList_getLast _ (by simp)] at hx
        simp only [Option.map_some', Option.mem_def, Option.some.injEq] at hx
        rw [← hx, ← hy]
        obtain ⟨l', k', s', hvr⟩ := subtreeAt_rightSpine (node a2 b2 c2 d2) (by simp)
        rw [nextPos_cons_L (node a2 b2 c2 d2) k s r _ l' k' s' leaf hvr,
          nextPos_rightSpine _ (by simp)]

theorem posList_items (t : Tree) :
    (posList t).map (itemAt t) = (kvList t).map some := by
  induction t with
  | leaf => rfl
  | node l k s r ihl ihr =>
    have hfl : itemAt (node l k s r) ∘ (fun p => Dir.L :: p) = itemAt l :=
      funext (fun p => rfl)
    have hfr : itemAt (node l k s r) ∘ (fun p => Dir.R :: p) = itemAt r :=
      funext (fun p => rfl)
    rw [show posList (node l k s r)
      = (posList l).map (Dir.L :: ·) ++ [] :: (posList r).map (Dir.R :: ·) from rfl]
    rw [show kvList (node l k s r) = kvList l ++ (k, s) :: kvList r from rfl]
    rw [List.map_append, List.map_cons, List.map_map, List.map_map, hfl, hfr,
      ihl, ihr, List.map_append, List.map_cons]
    rfl

theorem posList_length (t : Tree) : (posList t).length = size t := by
  induction t with
  | leaf => rfl
  | node l k s r ihl ihr => simp [posList, size, ihl, ihr]; omega

theorem iterFrom_spec (t : Tree) (ps : List Path) :
    ∀ (its : List (ℚ × List Order)) (p : Path) (n : Nat),
      List.Chain' (fun a b => nextPos t a = some b) (p :: ps) →
      nextPos t ((p :: ps).getLast (List.cons_ne_nil _ _)) = none →
      ps.map (itemAt t) = its.map some →
      ps.length < n →
      iterFrom t n p = (its, true) := by
  induction ps with
  | nil =>
    intro its p n hch hlast hit hlen
    cases its with
    | cons it its => simp at hit
    | nil =>
      cases n with
      | zero => omega
      | succ m =>
        have hnone : nextPos t p = none := by simpa using hlast
        simp [iterFrom, hnone]
  | cons q ps ih =>
    intro its p n hch hlast hit hlen
    cases its with
    | nil => simp at hit
    | cons it its =>
      simp only [List.map_cons, List.cons.injEq] at hit
      cases n with
      | zero => omega
      | succ m =>
        rw [List.chain'_cons] at hch
        have hlast' : nextPos t ((q :: ps).getLast (List.cons_ne_nil _ _)) = none := by
          rw [← List.getLast_cons (List.cons_ne_nil _ _)]
          exact hlast
        have hrec := ih its q m hch.2 hlast' hit.2 (by
          simp only [List.length_cons] at hlen
          omega)
        simp only [iterFrom, hch.1, hit.1, hrec]

theorem inorderRun_eq (t : Tree) : inorderRun t = (kvList t, true) := by
  cases t with
  | leaf => rfl
  | node l0 k0 s0 r0 =>
    have hne : node l0 k0 s0 r0 ≠ leaf := by simp
    have hhead := posList_head _ hne
    have hlastq := posList_getLast _ hne
    have hchain := chain_posList (node l0 k0 s0 r0)
    have hitems := posList_items (node l0 k0 s0 r0)
    have hlen := posList_length (node l0 k0 s0 r0)
    cases hpl : posList (node l0 k0 s0 r0) with
    | nil => exact absurd hpl (posList_ne_nil _ hne)
    | cons p0 ps =>
      rw [hpl] at hhead hlastq hchain hitems hlen
      simp only [List.head?_cons, Option.some.injEq] at hhead
      cases hkv : kvList (node l0 k0 s0 r0) with
      | nil => simp [kvList] at hkv
      | cons it0 its =>
        rw [hkv] at hitems
        simp only [List.map_cons, List.cons.injEq] at hitems
        have hlast : nextPos (node l0 k0 s0 r0)
            ((p0 :: ps).getLast (List.cons_ne_nil _ _)) = none := by
          have hgl : (p0 :: ps).getLast (List.cons_ne_nil _ _)
              = rightSpine (node l0 k0 s0 r0) := by
            have hq := List.getLast?_eq_getLast (p0 :: ps) (List.cons_ne_nil _ _)
            rw [hq] at hlastq
            exact Option.some.inj hlastq
          rw [hgl]
          exact nextPos_rightSpine _ hne
        have hrun := iterFrom_spec (node l0 k0 s0 r0) ps its p0
          (size (node l0 k0 s0 r0)) hchain hlast hitems.2 (by
            simp only [List.length_cons] at hlen
            omega)
        rw [show inorderRun (node l0 k0 s0 r0)
          = (match itemAt (node l0 k0 s0 r0) (leftSpine (node l0 k0 s0 r0)) with
             | some it => ((it :: (iterFrom (node l0 k0 s0 r0)
                 (size (node l0 k0 s0 r0)) (leftSpine (node l0 k0 s0 r0))).1),
               (iterFrom (node l0 k0 s0 r0) (size (node l0 k0 s0 r0))
                 (leftSpine (node l0 k0 s0 r0))).2)
             | none => ([], false)) from rfl]
        rw [← hhead, hitems.1, hrun]


theorem climbB_cons_of_some (d : Dir) (p q : Path) (h : climbB p = some q) :
    climbB (d :: p) = some (d :: q) := by
  simp [climbB, h]

theorem climbB_R_of_none (p : Path) (h : climbB p = none) :
    climbB (Dir.R :: p) = some [] := by
  simp [climbB, h]

theorem climbB_L_of_none (p : Path) (h : climbB p = none) :
    climbB (Dir.L :: p) = none := by
  simp [climbB, h]

theorem prevPos_leftSpine (t : Tree) (h : t ≠ leaf) :
    prevPos t (leftSpine t) = none := by
  induction t with
  | leaf => exact absurd rfl h
  | node l k s r ihl ihr =>
    cases l with
    | leaf => rfl
    | node a ka sa b =>
      have hls : leftSpine (node (node a ka sa b) k s r)
          = Dir.L :: leftSpine (node a ka sa b) := rfl
      have ih := ihl (by simp)
      rw [hls]
      obtain ⟨k', s', r', hsub⟩ := subtreeAt_leftSpine (node a ka sa b) (by simp)
      simp only [prevPos] at ih ⊢
      rw [show subtreeAt (node (node a ka sa b) k s r)
        (Dir.L :: leftSpine (node a ka sa b))
        = subtreeAt (node a ka sa b) (leftSpine (node a ka sa b)) from rfl]
      rw [hsub] at ih ⊢
      exact climbB_L_of_none _ ih

theorem prevPos_cons_R (l : Tree) (k : ℚ) (s : List Order) (r : Tree)
    (p : Path) (a : Tree) (ka : ℚ) (sa : List Order) (b : Tree)
    (hv : subtreeAt r p = some (node a ka sa b)) :
    prevPos (node l k s r) (Dir.R :: p)
      = match prevPos r p with
        | some q => some (Dir.R :: q)
        | none => some [] := by
  have hs : subtreeAt (node l k s r) (Dir.R :: p) = subtreeAt r p := rfl
  simp only [prevPos, hs, hv]
  cases a with
  | node a1 a2 a3 a4 => simp
  | leaf =>
    cases hc : climbB p with
    | some q => rw [climbB_cons_of_some Dir.R p q hc]
    | none => rw [climbB_R_of_none p hc]

theorem prevPos_cons_L (l : Tree) (k : ℚ) (s : List Order) (r : Tree)
    (p : Path) (a : Tree) (ka : ℚ) (sa : List Order) (b : Tree)
    (hv : subtreeAt l p = some (node a ka sa b)) :
    prevPos (node l k s r) (Dir.L :: p) = (prevPos l p).map (Dir.L :: ·) := by
  have hs : subtreeAt (node l k s r) (Dir.L :: p) = subtreeAt l p := rfl
  simp only [prevPos, hs, hv]
  cases a with
  | node a1 a2 a3 a4 => simp
  | leaf =>
    cases hc : climbB p with
    | some q => rw [climbB_cons_of_some Dir.L p q hc]; rfl
    | none => rw [climbB_L_of_none p hc]; rfl

theorem posList_reverse_node (l : Tree) (k : ℚ) (s : List Order) (r : Tree) :
    (posList (node l k s r)).reverse
      = ((posList r).reverse).map (Dir.R :: ·)
        ++ [] :: ((posList l).reverse).map (Dir.L :: ·) := by
  rw [show posList (node l k s r)
    = (posList l).map (Dir.L :: ·) ++ [] :: (posList r).map (Dir.R :: ·) from rfl]
  rw [List.reverse_append, List.reverse_cons, List.map_reverse, List.map_reverse]
  simp

theorem chainB_posList (t : Tree) :
    List.Chain' (fun p q => prevPos t p = some q) ((posList t).reverse) := by
  induction t with
  | leaf => simp [posList]
  | node l k s r ihl ihr =>
    rw [posList_reverse_node]
    rw [List.chain'_append]
    refine ⟨?_, ?_, ?_⟩
    · rw [List.chain'_map]
      refine chain_imp_mem _ ?_ ihr
      intro a ha b hb hab
      obtain ⟨la, ka2, sa2, ra2, hv⟩ :=
        posList_mem_subtreeAt r a (List.mem_reverse.mp ha)
      rw [prevPos_cons_R l k s r a la ka2 sa2 ra2 hv, hab]
    · refine List.chain'_cons'.mpr ⟨?_, ?_⟩
      · intro h hh
        rw [head?_list_map] at hh
        cases l with
        | leaf => simp [posList] at hh
        | node a2 b2 c2 d2 =>
          rw [List.head?_reverse, posList_getLast _ (by simp)] at hh
          simp only [Option.map_some', Option.mem_def, Option.some.injEq] at hh
          rw [← hh]
          rfl
      · rw [List.chain'_map]
        refine chain_imp_mem _ ?_ ihl
        intro a ha b hb hab
        obtain ⟨la, ka2, sa2, ra2, hv⟩ :=
          posList_mem_subtreeAt l a (List.mem_reverse.mp ha)
        rw [prevPos_cons_L l k s r a la ka2 sa2 ra2 hv, hab]
        rfl
    · intro x hx y hy
      simp only [List.head?_cons, Option.mem_def, Option.some.injEq] at hy
      cases r with
      | leaf => simp [posList] at hx
      | node a2 b2 c2 d2 =>
        rw [getLast?_list_map, List.getLast?_reverse, posList_head _ (by simp)] at hx
        simp only [Option.map_some', Option.mem_def, Option.some.injEq] at hx
        rw [← hx, ← hy]
        obtain ⟨k', s', r', hvl⟩ := subtreeAt_leftSpine (node a2 b2 c2 d2) (by simp)
        rw [prevPos_cons_R l k s (node a2 b2 c2 d2) _ leaf k' s' r' hvl,
          prevPos_leftSpine _ (by simp)]

theorem iterBackFrom_spec (t : Tree) (ps : List Path) :
    ∀ (its : List (ℚ × List Order)) (p : Path) (n : Nat),
      List.Chain' (fun a b => prevPos t a = some b) (p :: ps) →
      prevPos t ((p :: ps).getLast (List.cons_ne_nil _ _)) = none →
      ps.map (itemAt t) = its.map some →
      ps.length < n →
      iterBackFrom t n p = (its, true) := by
  induction ps with
  | nil =>
    intro its p n hch hlast hit hlen
    cases its with
    | cons it its => simp at hit
    | nil =>
      cases n with
      | zero => omega
      | succ m =>
        have hnone : prevPos t p = none := by simpa using hlast
        simp [iterBackFrom, hnone]
  | cons q ps ih =>
    intro its p n hch hlast hit hlen
    cases its with
    | nil => simp at hit
    | cons it its =>
      simp only [List.map_cons, List.cons.injEq] at hit
      cases n with
      | zero => omega
      | succ m =>
        rw [List.chain'_cons] at hch
        have hlast' : prevPos t ((q :: ps).getLast (List.cons_ne_nil _ _)) = none := by
          rw [← List.getLast_cons (List.cons_ne_nil _ _)]
          exact hlast
        have hrec := ih its q m hch.2 hlast' hit.2 (by
          simp only [List.length_cons] at hlen
          omega)
        simp only [iterBackFrom, hch.1, hit.1, hrec]

theorem inorderBackRun_eq (t : Tree) :
    inorderBackRun t = ((kvList t).reverse, true) := by
  cases t with
  | leaf => rfl
  | node l0 k0 s0 r0 =>
    have hne : node l0 k0 s0 r0 ≠ leaf := by simp
    have hhead : ((posList (node l0 k0 s0 r0)).reverse).head?
        = some (rightSpine (node l0 k0 s0 r0)) := by
      rw [List.head?_reverse]
      exact posList_getLast _ hne
    have hlastq : ((posList (node l0 k0 s0 r0)).reverse).getLast?
        = some (leftSpine (node l0 k0 s0 r0)) := by
      rw [List.getLast?_reverse]
      exact posList_head _ hne
    have hchain := chainB_posList (node l0 k0 s0 r0)
    have hitems : ((posList (node l0 k0 s0 r0)).reverse).map
          (itemAt (node l0 k0 s0 r0))
        = ((kvList (node l0 k0 s0 r0)).reverse).map some := by
      rw [List.map_reverse, List.map_reverse, posList_items]
    have hlen : ((posList (node l0 k0 s0 r0)).reverse).length
        = size (node l0 k0 s0 r0) := by
      rw [List.length_reverse]
      exact posList_length _
    have hnn : (posList (node l0 k0 s0 r0)).reverse ≠ [] := by
      intro hc
      exact posList_ne_nil _ hne (by
        have := congrArg List.reverse hc
        simpa using this)
    cases hpl : (posList (node l0 k0 s0 r0)).reverse with
    | nil => exact absurd hpl hnn
    | cons p0 ps =>
      rw [hpl] at hhead hlastq hchain hitems hlen
      simp only [List.head?_cons, Option.some.injEq] at hhead
      cases hkv : (kvList (node l0 k0 s0 r0)).reverse with
      | nil =>
        have : kvList (node l0 k0 s0 r0) = [] := by
          have := congrArg List.reverse hkv
          simpa using this
        simp [kvList] at this
      | cons it0 its =>
        rw [hkv] at hitems
        simp only [List.map_cons, List.cons.injEq] at hitems
        have hlast : prevPos (node l0 k0 s0 r0)
            ((p0 :: ps).getLast (List.cons_ne_nil _ _)) = none := by
          have hgl : (p0 :: ps).getLast (List.cons_ne_nil _ _)
              = leftSpine (node l0 k0 s0 r0) := by
            have hq := List.getLast?_eq_getLast (p0 :: ps) (List.cons_ne_nil _ _)
            rw [hq] at hlastq
            exact Option.some.inj hlastq
          rw [hgl]
          exact prevPos_leftSpine _ hne
        have hrun := iterBackFrom_spec (node l0 k0 s0 r0) ps its p0
          (size (node l0 k0 s0 r0)) hchain hlast hitems.2 (by
            simp only [List.length_cons] at hlen
            omega)
        rw [show inorderBackRun (node l0 k0 s0 r0)
          = (match itemAt (node l0 k0 s0 r0) (rightSpine (node l0 k0 s0 r0)) with
             | some it => ((it :: (iterBackFrom (node l0 k0 s0 r0)
                 (size (node l0 k0 s0 r0)) (rightSpine (node l0 k0 s0 r0))).1),
               (iterBackFrom (node l0 k0 s0 r0) (size (node l0 k0 s0 r0))
                 (rightSpine (node l0 k0 s0 r0))).2)
             | none => ([], false)) from rfl]
        rw [← hhead, hitems.1, hrun]


/-- C4: after every finite sequence of insert and remove operations starting
from the empty tree, a full run of the stateful forward iterator yields
exactly the in-order key/stack sequence of the tree — each node exactly
once, terminating with a final `None` within `size` steps (the `true`
flag) — and its keys are strictly increasing; the reverse iterator yields
exactly the reversed sequence, whose keys are strictly decreasing. -/
theorem claim_C4 (ops : List Op) :
    inorderRun (applyOps ops) = (kvList (applyOps ops), true) ∧
    ((kvList (applyOps ops)).map Prod.fst).Sorted (· < ·) ∧
    inorderBackRun (applyOps ops) = ((kvList (applyOps ops)).reverse, true) ∧
    (((kvList (applyOps ops)).reverse).map Prod.fst).Sorted (· > ·) := by
  have hs : ((kvList (applyOps ops)).map Prod.fst).Sorted (· < ·) := by
    rw [← keys_eq_map_fst, ← bst_iff_sorted]
    exact applyOps_bst ops
  refine ⟨inorderRun_eq _, hs, inorderBackRun_eq _, ?_⟩
  rw [List.map_reverse]
  exact List.pairwise_reverse.mpr hs

end Tree

/-!
Book-level claims.
-/

/-- C1, evaluation at the failing input: in `orderbook_py.rs`, `best_ask`
takes `iter().next_back()` — the in-order LAST ask node.  On a book holding
asks at 102 and 100 it answers 102, the maximum, while 100 is resting and
the doc comment and spec require the minimum (the lowest asking price). -/
theorem claim_C1 :
    ((BookPy.new.insert ⟨1, Side.Asks, 102, 1, 0⟩).insert
        ⟨2, Side.Asks, 100, 1, 0⟩).bestAsk = some 102 ∧
    (100 : ℚ) ∈ Tree.keys ((BookPy.new.insert ⟨1, Side.Asks, 102, 1, 0⟩).insert
        ⟨2, Side.Asks, 100, 1, 0⟩).asks ∧
    (100 : ℚ) < 102 := by
  refine ⟨by decide, by decide, by norm_num⟩

/-- C2, counterexample to the claim as stated: with the default factor 2.0,
after a bid at 100 (best bid 100, stored cutoff 50), a bid at exactly 50 is
dropped — `outliers` becomes 1 and `len` stays 1 — although
`50 < 100 / 2.0` is false, so the claimed condition
"dropped exactly when price < best_bid / outlier_factor" does not hold. -/
theorem claim_C2_counterexample :
    ((BookSlab.new.insert ⟨1, Side.Bids, 100, 1, 0⟩).insert
        ⟨2, Side.Bids, 50, 1, 0⟩).outliers = 1 ∧
    ((BookSlab.new.insert ⟨1, Side.Bids, 100, 1, 0⟩).insert
        ⟨2, Side.Bids, 50, 1, 0⟩).len = 1 ∧
    (BookSlab.new.insert ⟨1, Side.Bids, 100, 1, 0⟩).bestBid = some 100 ∧
    (BookSlab.new.insert ⟨1, Side.Bids, 100, 1, 0⟩).outlier_factor = 2 ∧
    ¬ ((50 : ℚ) < 100 / 2) := by
  refine ⟨?_, ?_, ?_, ?_, by norm_num⟩ <;>
    norm_num [BookSlab.new, BookSlab.insert, BookSlab.handleOutlier,
      BookSlab.bestBid, BookSlab.bestAsk, Tree.lastKey?, Tree.firstKey?,
      Tree.insertT, Tree.insertP, mapInsert]

theorem handleOutlier_bids_none (b : BookSlab) (o : Order)
    (hs : o.side = Side.Bids) (hb : b.bestBid = none) :
    b.handleOutlier o
      = (false, { b with bid_cutoff := o.price / b.outlier_factor }) := by
  simp only [BookSlab.handleOutlier, hs, hb]

theorem handleOutlier_bids_some (b : BookSlab) (o : Order) (bb : ℚ)
    (hs : o.side = Side.Bids) (hb : b.bestBid = some bb) :
    b.handleOutlier o
      = (if bb < o.price then
           (false, { b with bid_cutoff := o.price / b.outlier_factor })
         else if b.bid_cutoff < o.price then (false, b)
         else (true, b)) := by
  simp only [BookSlab.handleOutlier, hs, hb]

theorem handleOutlier_asks_none (b : BookSlab) (o : Order)
    (hs : o.side = Side.Asks) (hb : b.bestAsk = none) :
    b.handleOutlier o
      = (false, { b with ask_cutoff := o.price * b.outlier_factor }) := by
  simp only [BookSlab.handleOutlier, hs, hb]

theorem handleOutlier_asks_some (b : BookSlab) (o : Order) (ba : ℚ)
    (hs : o.side = Side.Asks) (hb : b.bestAsk = some ba) :
    b.handleOutlier o
      = (if o.price < ba then
           (false, { b with ask_cutoff := o.price * b.outlier_factor })
         else if o.price < b.ask_cutoff then (false, b)
         else (true, b)) := by
  simp only [BookSlab.handleOutlier, hs, hb]

theorem handleOutlier_true_snd (b : BookSlab) (o : Order)
    (h : (b.handleOutlier o).1 = true) : (b.handleOutlier o).2 = b := by
  cases hs : o.side with
  | Bids =>
    cases hb : b.bestBid with
    | none => rw [handleOutlier_bids_none b o hs hb] at h; simp at h
    | some bb =>
      rw [handleOutlier_bids_some b o bb hs hb] at h ⊢
      by_cases h1 : bb < o.price
      · rw [if_pos h1] at h; simp at h
      · rw [if_neg h1] at h ⊢
        by_cases h2 : b.bid_cutoff < o.price
        · rw [if_pos h2] at h; simp at h
        · rw [if_neg h2]
  | Asks =>
    cases hb : b.bestAsk with
    | none => rw [handleOutlier_asks_none b o hs hb] at h; simp at h
    | some ba =>
      rw [handleOutlier_asks_some b o ba hs hb] at h ⊢
      by_cases h1 : o.price < ba
      · rw [if_pos h1] at h; simp at h
      · rw [if_neg h1] at h ⊢
        by_cases h2 : o.price < b.ask_cutoff
        · rw [if_pos h2] at h; simp at h
        · rw [if_neg h2]

/-- C2, amended: an inserted bid order is dropped exactly when the bids tree
is non-empty (best bid present), the order does not improve the best bid
(price ≤ best bid) and it does not clear the STORED bid cutoff
(price ≤ bid_cutoff, where the cutoff was set to p/outlier_factor by the
most recent bid that arrived with an empty tree or improved the best);
symmetrically an ask is dropped exactly when the asks tree is non-empty,
best ask ≤ price and ask_cutoff ≤ price.  A dropped order changes nothing
except incrementing `outliers` by one.  The scenario bid-100-then-bid-10
rejects "B" silently with len 1, outliers 1, items_processed 2. -/
theorem claim_C2_amended :
    (∀ (b : BookSlab) (o : Order), o.side = Side.Bids →
      ((b.handleOutlier o).1 = true ↔
        ∃ bb, b.bestBid = some bb ∧ o.price ≤ bb ∧ o.price ≤ b.bid_cutoff)) ∧
    (∀ (b : BookSlab) (o : Order), o.side = Side.Asks →
      ((b.handleOutlier o).1 = true ↔
        ∃ ba, b.bestAsk = some ba ∧ ba ≤ o.price ∧ b.ask_cutoff ≤ o.price)) ∧
    (∀ (b : BookSlab) (o : Order), (b.handleOutlier o).1 = true →
      b.insert o = { b with outliers := b.outliers + 1 }) ∧
    (((BookSlab.new.process ⟨1, Side.Bids, 100, 1, 0⟩ Submit.Ins).process
        ⟨2, Side.Bids, 10, 1, 0⟩ Submit.Ins).len = 1 ∧
      ((BookSlab.new.process ⟨1, Side.Bids, 100, 1, 0⟩ Submit.Ins).process
        ⟨2, Side.Bids, 10, 1, 0⟩ Submit.Ins).outliers = 1 ∧
      ((BookSlab.new.process ⟨1, Side.Bids, 100, 1, 0⟩ Submit.Ins).process
        ⟨2, Side.Bids, 10, 1, 0⟩ Submit.Ins).items_processed = 2) := by
  refine ⟨?_, ?_, ?_, ?_, ?_, ?_⟩
  · intro b o hs
    cases hb : b.bestBid with
    | none =>
      rw [handleOutlier_bids_none b o hs hb]
      simp
    | some bb =>
      rw [handleOutlier_bids_some b o bb hs hb]
      by_cases h1 : bb < o.price
      · rw [if_pos h1]
        constructor
        · intro h; simp at h
        · rintro ⟨bb', hbb', hle, _⟩
          rw [Option.some.injEq] at hbb'
          rw [← hbb'] at hle
          exact absurd h1 (not_lt.mpr hle)
      · rw [if_neg h1]
        by_cases h2 : b.bid_cutoff < o.price
        · rw [if_pos h2]
          constructor
          · intro h; simp at h
          · rintro ⟨bb', _, _, hc⟩
            exact absurd h2 (not_lt.mpr hc)
        · rw [if_neg h2]
          constructor
          · intro _
            exact ⟨bb, rfl, not_lt.mp h1, not_lt.mp h2⟩
          · intro _; rfl
  · intro b o hs
    cases hb : b.bestAsk with
    | none =>
      rw [handleOutlier_asks_none b o hs hb]
      simp
    | some ba =>
      rw [handleOutlier_asks_some b o ba hs hb]
      by_cases h1 : o.price < ba
      · rw [if_pos h1]
        constructor
        · intro h; simp at h
        · rintro ⟨ba', hba', hle, _⟩
          rw [Option.some.injEq] at hba'
          rw [← hba'] at hle
          exact absurd h1 (not_lt.mpr hle)
      · rw [if_neg h1]
        by_cases h2 : o.price < b.ask_cutoff
        · rw [if_pos h2]
          constructor
          · intro h; simp at h
          · rintro ⟨ba', _, _, hc⟩
            exact absurd h2 (not_lt.mpr hc)
        · rw [if_neg h2]
          constructor
          · intro _
            exact ⟨ba, rfl, not_lt.mp h1, not_lt.mp h2⟩
          · intro _; rfl
  · intro b o h
    have h2 := handleOutlier_true_snd b o h
    simp only [BookSlab.insert]
    rw [if_pos h, h2]
  · norm_num [BookSlab.new, BookSlab.process, BookSlab.insert,
      BookSlab.handleOutlier, BookSlab.bestBid, BookSlab.bestAsk,
      Tree.lastKey?, Tree.firstKey?, Tree.insertT, Tree.insertP, mapInsert]
  · norm_num [BookSlab.new, BookSlab.process, BookSlab.insert,
      BookSlab.handleOutlier, BookSlab.bestBid, BookSlab.bestAsk,
      Tree.lastKey?, Tree.firstKey?, Tree.insertT, Tree.insertP, mapInsert]
  · norm_num [BookSlab.new, BookSlab.process, BookSlab.insert,
      BookSlab.handleOutlier, BookSlab.bestBid, BookSlab.bestAsk,
      Tree.lastKey?, Tree.firstKey?, Tree.insertT, Tree.insertP, mapInsert]

/-- Witness for the amended C2 at a concrete input: a bid at 50 into a book
whose best bid is 100 and whose stored cutoff is 50 is an outlier. -/
theorem claim_C2_amended_witness :
    ((BookSlab.new.insert ⟨1, Side.Bids, 100, 1, 0⟩).handleOutlier
        ⟨2, Side.Bids, 50, 1, 0⟩).1 = true :=
  (claim_C2_amended.1 (BookSlab.new.insert ⟨1, Side.Bids, 100, 1, 0⟩)
      ⟨2, Side.Bids, 50, 1, 0⟩ rfl).mpr
    ⟨100,
     by norm_num [BookSlab.new, BookSlab.insert, BookSlab.handleOutlier,
       BookSlab.bestBid, BookSlab.bestAsk, Tree.lastKey?, Tree.firstKey?,
       Tree.insertT, Tree.insertP, mapInsert],
     by norm_num,
     by norm_num [BookSlab.new, BookSlab.insert, BookSlab.handleOutlier,
       BookSlab.bestBid, BookSlab.bestAsk, Tree.lastKey?, Tree.firstKey?,
       Tree.insertT, Tree.insertP, mapInsert]⟩

/-- C5, counterexample to the claim as stated: insert of an order whose uid
is already resting is NOT a no-op in `orderbook_py.rs` — `insert` performs
no presence check, so re-inserting uid 1 appends a duplicate and `len`
grows from 1 to 2. -/
theorem claim_C5_counterexample :
    (BookPy.new.insert ⟨1, Side.Bids, 100, 1, 0⟩).has 1 = true ∧
    ((BookPy.new.insert ⟨1, Side.Bids, 100, 1, 0⟩).insert
        ⟨1, Side.Bids, 100, 2, 0⟩).len = 2 ∧
    (BookPy.new.insert ⟨1, Side.Bids, 100, 1, 0⟩).len = 1 := by
  refine ⟨by decide, by decide, by decide⟩

/-- C5, amended: remove of a uid absent from the order index and update of
an absent uid leave the book entirely unchanged; but insert of an order
whose uid is already present is applied like any other insert — it appends
the duplicate at its price, overwrites the index entry and increments `len`
by one (never a no-op). -/
theorem claim_C5_amended :
    (∀ (b : BookPy) (uid : Nat), mapLookup b.order_map uid = none →
      b.remove uid = b) ∧
    (∀ (b : BookPy) (uid : Nat) (sz : ℚ), b.getOrder? uid = none →
      b.update uid sz = b) ∧
    (∀ (b : BookPy) (o : Order), (b.insert o).len = b.len + 1) := by
  refine ⟨?_, ?_, ?_⟩
  · intro b uid h
    simp only [BookPy.remove, h]
  · intro b uid sz h
    simp only [BookPy.update, h]
  · intro b o
    cases hs : o.side <;> simp [BookPy.insert, hs]

/-- Witness for the amended C5 at concrete inputs: removing and updating an
absent uid on a one-order book leaves it unchanged; re-inserting grows
`len`. -/
theorem claim_C5_amended_witness :
    (BookPy.new.insert ⟨1, Side.Bids, 100, 1, 0⟩).remove 7
        = BookPy.new.insert ⟨1, Side.Bids, 100, 1, 0⟩ ∧
    (BookPy.new.insert ⟨1, Side.Bids, 100, 1, 0⟩).update 7 3
        = BookPy.new.insert ⟨1, Side.Bids, 100, 1, 0⟩ ∧
    ((BookPy.new.insert ⟨1, Side.Bids, 100, 1, 0⟩).insert
        ⟨1, Side.Bids, 100, 2, 0⟩).len
      = (BookPy.new.insert ⟨1, Side.Bids, 100, 1, 0⟩).len + 1 :=
  ⟨claim_C5_amended.1 _ 7 (by decide),
   claim_C5_amended.2.1 _ 7 3 (by decide),
   claim_C5_amended.2.2 _ ⟨1, Side.Bids, 100, 2, 0⟩⟩

/-- C6: for every book and uid resting in it (`has` true), a size-0 update
is the same book transformation as remove (`update` forwards to `remove`);
in particular after inserting ("A", Bid, 100, 5) and updating it to size 0,
the order is gone, `len` is 0 and `best_bid` is absent. -/
theorem claim_C6 :
    (∀ (b : BookPy) (uid : Nat), b.has uid = true →
      b.update uid 0 = b.remove uid) ∧
    (((BookPy.new.insert ⟨1, Side.Bids, 100, 5, 0⟩).update 1 0).has 1 = false ∧
      ((BookPy.new.insert ⟨1, Side.Bids, 100, 5, 0⟩).update 1 0).len = 0 ∧
      ((BookPy.new.insert ⟨1, Side.Bids, 100, 5, 0⟩).update 1 0).bestBid = none) := by
  refine ⟨?_, by decide, by decide, by decide⟩
  intro b uid h
  rw [BookPy.has, Option.isSome_iff_exists] at h
  obtain ⟨o, ho⟩ := h
  simp only [BookPy.update, ho]
  simp

/-- Witness for C6: the resting order "A" (uid 1) updated to size 0 equals
its removal. -/
theorem claim_C6_witness :
    (BookPy.new.insert ⟨1, Side.Bids, 100, 5, 0⟩).update 1 0
      = (BookPy.new.insert ⟨1, Side.Bids, 100, 5, 0⟩).remove 1 :=
  claim_C6.1 (BookPy.new.insert ⟨1, Side.Bids, 100, 5, 0⟩) 1 (by decide)

/-- C10: `is_balanced` looks at the root's balance factor only — on any
non-empty tree it answers true exactly when that one number is in
`[-1, 1]`, on the empty tree it panics (unwraps the absent root link,
`none` here) — so a tree whose deeper node violates the height balance
still passes, and `check` emits no imbalance message for a book carrying
such a tree. -/
theorem claim_C10 :
    (∀ t : Tree, t ≠ Tree.leaf →
      (isBalancedOpt t = some true ↔ (-1 ≤ Tree.bf t ∧ Tree.bf t ≤ 1))) ∧
    isBalancedOpt Tree.leaf = none ∧
    (isBalancedOpt (Tree.node (Tree.node (Tree.node Tree.leaf 1 [] Tree.leaf)
          2 [] Tree.leaf) 3 []
          (Tree.node Tree.leaf 4 [] (Tree.node Tree.leaf 5 []
            (Tree.node Tree.leaf 6 [] Tree.leaf)))) = some true ∧
      Tree.avl (Tree.node (Tree.node (Tree.node Tree.leaf 1 [] Tree.leaf)
          2 [] Tree.leaf) 3 []
          (Tree.node Tree.leaf 4 [] (Tree.node Tree.leaf 5 []
            (Tree.node Tree.leaf 6 [] Tree.leaf)))) = false) ∧
    (BookPy.check ⟨Tree.node (Tree.node (Tree.node Tree.leaf 1 [] Tree.leaf)
          2 [] Tree.leaf) 3 []
          (Tree.node Tree.leaf 4 [] (Tree.node Tree.leaf 5 []
            (Tree.node Tree.leaf 6 [] Tree.leaf))),
        Tree.node Tree.leaf 7 [] Tree.leaf, [], 0, 0⟩ = some [] ∧
      Msg.bidsNotBalanced ∉ ([] : List Msg)) := by
  refine ⟨?_, rfl, ⟨by decide, by decide⟩, by decide, by decide⟩
  intro t ht
  cases t with
  | leaf => exact absurd rfl ht
  | node l k s r =>
    simp only [isBalancedOpt, Option.some.injEq, Bool.and_eq_true,
      decide_eq_true_eq]

/-- Witness for C10 at a concrete non-empty tree: a singleton tree is
reported balanced. -/
theorem claim_C10_witness :
    isBalancedOpt (Tree.node Tree.leaf 5 [] Tree.leaf) = some true ↔
      (-1 ≤ Tree.bf (Tree.node Tree.leaf 5 [] Tree.leaf) ∧
        Tree.bf (Tree.node Tree.leaf 5 [] Tree.leaf) ≤ 1) :=
  claim_C10.1 (Tree.node Tree.leaf 5 [] Tree.leaf) (by decide)

theorem handleOutlier_counters (b : BookSlab) (o : Order) :
    (b.handleOutlier o).2.items_processed = b.items_processed ∧
    (b.handleOutlier o).2.outliers = b.outliers := by
  cases hs : o.side with
  | Bids =>
    cases hb : b.bestBid with
    | none => rw [handleOutlier_bids_none b o hs hb]; exact ⟨rfl, rfl⟩
    | some bb =>
      rw [handleOutlier_bids_some b o bb hs hb]
      split_ifs <;> exact ⟨rfl, rfl⟩
  | Asks =>
    cases hb : b.bestAsk with
    | none => rw [handleOutlier_asks_none b o hs hb]; exact ⟨rfl, rfl⟩
    | some ba =>
      rw [handleOutlier_asks_some b o ba hs hb]
      split_ifs <;> exact ⟨rfl, rfl⟩

theorem insert_counters (b : BookSlab) (o : Order) :
    (b.insert o).items_processed = b.items_processed ∧
    (b.insert o).outliers ≤ b.outliers + 1 := by
  have hc := handleOutlier_counters b o
  simp only [BookSlab.insert]
  by_cases h : (b.handleOutlier o).1 = true
  · rw [if_pos h]
    refine ⟨hc.1, ?_⟩
    show (b.handleOutlier o).2.outliers + 1 ≤ b.outliers + 1
    rw [hc.2]
  · rw [if_neg h]
    cases hs : o.side <;>
      exact ⟨hc.1, le_trans (le_of_eq hc.2) (Nat.le_succ _)⟩

theorem remove_counters (b : BookSlab) (uid : Nat) :
    (b.remove uid).items_processed = b.items_processed ∧
    (b.remove uid).outliers = b.outliers := by
  simp only [BookSlab.remove]
  repeat' split
  all_goals exact ⟨rfl, rfl⟩

theorem setSize_counters (b : BookSlab) (uid : Nat) (sz : ℚ) :
    (b.setSize uid sz).items_processed = b.items_processed ∧
    (b.setSize uid sz).outliers = b.outliers := by
  simp only [BookSlab.setSize]
  repeat' split
  all_goals exact ⟨rfl, rfl⟩

theorem update_counters (b : BookSlab) (uid : Nat) (sz : ℚ) :
    (b.update uid sz).items_processed = b.items_processed ∧
    (b.update uid sz).outliers = b.outliers := by
  simp only [BookSlab.update]
  repeat' split
  all_goals first
    | exact ⟨rfl, rfl⟩
    | exact remove_counters b uid
    | exact setSize_counters b uid sz

theorem process_counters (b : BookSlab) (o : Order) (a : Submit) :
    (b.process o a).items_processed = b.items_processed + 1 ∧
    (b.process o a).outliers ≤ b.outliers + 1 := by
  cases a with
  | Ins =>
    exact ⟨congrArg (· + 1) (insert_counters b o).1, (insert_counters b o).2⟩
  | Rem =>
    exact ⟨congrArg (· + 1) (remove_counters b o.uid).1,
      le_trans (le_of_eq (remove_counters b o.uid).2) (Nat.le_succ _)⟩
  | Upd =>
    exact ⟨congrArg (· + 1) (update_counters b o.uid o.size).1,
      le_trans (le_of_eq (update_counters b o.uid o.size).2) (Nat.le_succ _)⟩

theorem processAll_inv (xs : List (Order × Submit)) :
    ∀ (b : BookSlab), b.outliers ≤ b.items_processed →
      (xs.foldl (fun b x => b.process x.1 x.2) b).outliers ≤
        (xs.foldl (fun b x => b.process x.1 x.2) b).items_processed := by
  induction xs with
  | nil => intro b h; exact h
  | cons x xs ih =>
    intro b h
    simp only [List.foldl_cons]
    apply ih
    obtain ⟨h1, h2⟩ := process_counters b x.1 x.2
    omega

/-- C8: every `process` call increments `items_processed` by exactly one
relative to the book it was called on, whatever the action and whether the
operation was applied, ignored (unknown uid) or dropped as an outlier; and
along every finite run of `process` calls from a fresh book,
`outliers ≤ items_processed`. -/
theorem claim_C8 :
    (∀ (b : BookSlab) (o : Order) (a : Submit),
      (b.process o a).items_processed = b.items_processed + 1) ∧
    (∀ xs : List (Order × Submit),
      (BookSlab.processAll xs).outliers ≤ (BookSlab.processAll xs).items_processed) := by
  constructor
  · intro b o a
    exact (process_counters b o a).1
  · intro xs
    exact processAll_inv xs BookSlab.new (Nat.le_refl 0)

/-!
The full-order iterator of `orderbook_py.rs` on a book whose asks tree is
empty (claim C9): the bids phase yields every resting bid order, and the
switch to the asks side unwraps an absent node.
-/

theorem firstYield_none_join (bids : Tree) :
    ∀ qs : List Tree.Path, firstYield bids qs = none →
      ((qs.map (Tree.stackAtD bids)).flatten : List Order) = [] := by
  intro qs
  induction qs with
  | nil => intro _; rfl
  | cons q0 qs ih =>
    intro h
    cases hs0 : Tree.stackAtD bids q0 with
    | cons o0 r0 =>
      simp only [firstYield, hs0] at h
      exact absurd h (by simp)
    | nil =>
      simp only [firstYield, hs0] at h
      simp [hs0, ih h]

theorem firstYield_some (bids : Tree) :
    ∀ (qs : List Tree.Path) (q : Tree.Path) (o : Order) (rest : List Order),
      firstYield bids qs = some (q, o, rest) →
      ∃ pre qs₂, qs = pre ++ q :: qs₂ ∧
        (∀ x ∈ pre, Tree.stackAtD bids x = []) ∧
        Tree.stackAtD bids q = o :: rest := by
  intro qs
  induction qs with
  | nil => intro q o rest h; exact absurd h (by simp [firstYield])
  | cons q0 qs ih =>
    intro q o rest h
    cases hs0 : Tree.stackAtD bids q0 with
    | nil =>
      simp only [firstYield, hs0] at h
      obtain ⟨pre, qs₂, heq, hpre, hq⟩ := ih q o rest h
      refine ⟨q0 :: pre, qs₂, by rw [heq]; rfl, ?_, hq⟩
      intro x hx
      rcases List.mem_cons.mp hx with rfl | hx'
      · exact hs0
      · exact hpre x hx'
    | cons o0 r0 =>
      simp only [firstYield, hs0] at h
      rw [Option.some.injEq, Prod.mk.injEq, Prod.mk.injEq] at h
      obtain ⟨rfl, rfl, rfl⟩ := h
      refine ⟨[], qs, rfl, ?_, hs0⟩
      intro x hx
      exact absurd hx (List.not_mem_nil x)

theorem lobNextAux_yield (bids asks : Tree) (m : Nat) (hm : 1 ≤ m)
    (p : Tree.Path) (bIt aIt : Tree.TIter) (o : Order) (s : List Order) :
    lobNextAux bids asks m ⟨Side.Bids, some p, bIt, aIt, some (o :: s)⟩ =
      LStep.yield o ⟨Side.Bids, some p, bIt, aIt, some s⟩ := by
  obtain ⟨m1, rfl⟩ : ∃ m1, m = m1 + 1 := ⟨m - 1, by omega⟩
  rfl

theorem lobNextAux_skip (bids asks : Tree) (m : Nat) (p q : Tree.Path)
    (aIt : Tree.TIter) (h1 : Tree.nextPos bids p = some q) :
    lobNextAux bids asks (m + 1) ⟨Side.Bids, some p, ⟨some p, false⟩, aIt, some []⟩ =
      lobNextAux bids asks m
        ⟨Side.Bids, some q, ⟨some q, false⟩, aIt, some (Tree.stackAtD bids q)⟩ := by
  simp only [lobNextAux, Tree.treeNext, h1, Option.map_some']

theorem lobNextAux_skip_end (bids : Tree) (m : Nat) (p : Tree.Path)
    (h1 : Tree.nextPos bids p = none) :
    lobNextAux bids Tree.leaf (m + 2)
        ⟨Side.Bids, some p, ⟨some p, false⟩, ⟨none, true⟩, some []⟩ =
      LStep.panic := by
  simp only [lobNextAux, Tree.treeNext, h1, Option.map_none']

theorem lobNextAux_scan_none (bids : Tree) :
    ∀ (qs : List Tree.Path) (p : Tree.Path) (m : Nat),
      List.Chain' (fun a b => Tree.nextPos bids a = some b) (p :: qs) →
      (∀ z, (p :: qs).getLast? = some z → Tree.nextPos bids z = none) →
      firstYield bids qs = none →
      qs.length + 2 ≤ m →
      lobNextAux bids Tree.leaf m
          ⟨Side.Bids, some p, ⟨some p, false⟩, ⟨none, true⟩, some []⟩ =
        LStep.panic := by
  intro qs
  induction qs with
  | nil =>
    intro p m hch hlast hfy hm
    obtain ⟨m1, rfl⟩ : ∃ m1, m = m1 + 2 := ⟨m - 2, by omega⟩
    exact lobNextAux_skip_end bids m1 p (hlast p rfl)
  | cons q qs ih =>
    intro p m hch hlast hfy hm
    obtain ⟨m1, rfl⟩ : ∃ m1, m = m1 + 1 := ⟨m - 1, by omega⟩
    have h1 : Tree.nextPos bids p = some q := (List.chain'_cons.mp hch).1
    have hch' := (List.chain'_cons.mp hch).2
    have hsq : Tree.stackAtD bids q = [] := by
      cases hsq' : Tree.stackAtD bids q with
      | nil => rfl
      | cons o0 r0 =>
        simp only [firstYield, hsq'] at hfy
        exact absurd hfy (by simp)
    have hlast' : ∀ z, (q :: qs).getLast? = some z → Tree.nextPos bids z = none := by
      intro z hz
      apply hlast z
      rw [List.getLast?_cons_cons]
      exact hz
    have hfy' : firstYield bids qs = none := by
      have h := hfy
      simp only [firstYield, hsq] at h
      exact h
    rw [lobNextAux_skip bids Tree.leaf m1 p q ⟨none, true⟩ h1, hsq]
    exact ih q m1 hch' hlast' hfy' (by simp at hm; omega)

theorem lobNextAux_scan_some (bids : Tree) :
    ∀ (qs : List Tree.Path) (p : Tree.Path) (m : Nat) (q : Tree.Path)
      (o : Order) (rest : List Order),
      List.Chain' (fun a b => Tree.nextPos bids a = some b) (p :: qs) →
      firstYield bids qs = some (q, o, rest) →
      qs.length + 2 ≤ m →
      lobNextAux bids Tree.leaf m
          ⟨Side.Bids, some p, ⟨some p, false⟩, ⟨none, true⟩, some []⟩ =
        LStep.yield o ⟨Side.Bids, some q, ⟨some q, false⟩, ⟨none, true⟩, some rest⟩ := by
  intro qs
  induction qs with
  | nil =>
    intro p m q o rest hch hfy hm
    exact absurd hfy (by simp [firstYield])
  | cons q0 qs ih =>
    intro p m q o rest hch hfy hm
    obtain ⟨m1, rfl⟩ : ∃ m1, m = m1 + 1 := ⟨m - 1, by omega⟩
    have h1 : Tree.nextPos bids p = some q0 := (List.chain'_cons.mp hch).1
    have hch' := (List.chain'_cons.mp hch).2
    cases hs0 : Tree.stackAtD bids q0 with
    | cons o0 r0 =>
      simp only [firstYield, hs0] at hfy
      rw [Option.some.injEq, Prod.mk.injEq, Prod.mk.injEq] at hfy
      obtain ⟨rfl, rfl, rfl⟩ := hfy
      rw [lobNextAux_skip bids Tree.leaf m1 p q0 ⟨none, true⟩ h1, hs0]
      exact lobNextAux_yield bids Tree.leaf m1 (by simp at hm; omega) q0
        ⟨some q0, false⟩ ⟨none, true⟩ o0 r0
    | nil =>
      simp only [firstYield, hs0] at hfy
      rw [lobNextAux_skip bids Tree.leaf m1 p q0 ⟨none, true⟩ h1, hs0]
      exact ih q0 m1 q o rest hch' hfy (by simp at hm; omega)

theorem lobRun_yield_step (bids asks : Tree) (N : Nat) (st st' : LIter) (o : Order)
    (h : lobNextAux bids asks (Tree.size bids + Tree.size asks + 2) st
      = LStep.yield o st') :
    lobRun bids asks (N + 1) st
      = ((o :: (lobRun bids asks N st').1), (lobRun bids asks N st').2) := by
  simp only [lobRun, h]

theorem lobRun_panic_step (bids asks : Tree) (N : Nat) (st : LIter)
    (h : lobNextAux bids asks (Tree.size bids + Tree.size asks + 2) st
      = LStep.panic) :
    lobRun bids asks (N + 1) st = ([], ROut.panicked) := by
  simp only [lobRun, h]

theorem lobRun_scan (bids : Tree) :
    ∀ (N : Nat) (qs : List Tree.Path) (p : Tree.Path) (s : List Order),
      qs.length ≤ Tree.size bids →
      List.Chain' (fun a b => Tree.nextPos bids a = some b) (p :: qs) →
      (∀ z, (p :: qs).getLast? = some z → Tree.nextPos bids z = none) →
      s.length + ((qs.map (Tree.stackAtD bids)).flatten).length + 1 ≤ N →
      lobRun bids Tree.leaf N
          ⟨Side.Bids, some p, ⟨some p, false⟩, ⟨none, true⟩, some s⟩ =
        (s ++ (qs.map (Tree.stackAtD bids)).flatten, ROut.panicked) := by
  intro N
  induction N using Nat.strong_induction_on with
  | _ N ih =>
    intro qs p s hsz hch hlast hN
    obtain ⟨N1, rfl⟩ : ∃ N1, N = N1 + 1 := ⟨N - 1, by omega⟩
    cases s with
    | cons o s' =>
      rw [lobRun_yield_step bids Tree.leaf N1 _ _ o
        (lobNextAux_yield bids Tree.leaf _ (by omega) p ⟨some p, false⟩
          ⟨none, true⟩ o s')]
      rw [ih N1 (by omega) qs p s' hsz hch hlast (by simp at hN ⊢; omega)]
      simp
    | nil =>
      cases hfy : firstYield bids qs with
      | none =>
        rw [lobRun_panic_step bids Tree.leaf N1 _
          (lobNextAux_scan_none bids qs p _ hch hlast hfy
            (by have h0 : Tree.size Tree.leaf = 0 := rfl; omega))]
        rw [firstYield_none_join bids qs hfy]
        simp
      | some r =>
        obtain ⟨q, o, rest⟩ := r
        obtain ⟨pre, qs₂, rfl, hpre, hq⟩ := firstYield_some bids qs q o rest hfy
        have hsplit : p :: (pre ++ q :: qs₂) = (p :: pre) ++ (q :: qs₂) := by simp
        have hch₂ : List.Chain' (fun a b => Tree.nextPos bids a = some b) (q :: qs₂) := by
          rw [hsplit] at hch
          exact (List.chain'_append.mp hch).2.1
        have hlast₂ : ∀ z, (q :: qs₂).getLast? = some z → Tree.nextPos bids z = none := by
          intro z hz
          apply hlast z
          rw [show p :: (pre ++ q :: qs₂) = (p :: pre) ++ q :: qs₂ from hsplit]
          rw [List.getLast?_append_cons]
          exact hz
        have hpre0 : ((pre.map (Tree.stackAtD bids)).flatten : List Order) = [] := by
          rw [List.flatten_eq_nil_iff]
          intro y hy
          obtain ⟨x, hx, rfl⟩ := List.mem_map.mp hy
          exact hpre x hx
        have hjoin : (((pre ++ q :: qs₂).map (Tree.stackAtD bids)).flatten : List Order)
            = o :: (rest ++ (qs₂.map (Tree.stackAtD bids)).flatten) := by
          rw [List.map_append, List.flatten_append, hpre0, List.map_cons,
            List.flatten_cons, hq]
          simp
        rw [lobRun_yield_step bids Tree.leaf N1 _ _ o
          (lobNextAux_scan_some bids (pre ++ q :: qs₂) p _ q o rest hch hfy
            (by have h0 : Tree.size Tree.leaf = 0 := rfl; omega))]
        rw [ih N1 (by omega) qs₂ q rest
          (by simp at hsz ⊢; omega) hch₂ hlast₂
          (by rw [hjoin] at hN; simp at hN ⊢; omega)]
        rw [hjoin]
        simp

theorem kvList_snd_join (t : Tree) :
    (((Tree.kvList t).map (fun kv => kv.2)).flatten : List Order) = Tree.allOrders t := by
  induction t with
  | leaf => rfl
  | node l k s r ihl ihr =>
    rw [show Tree.kvList (Tree.node l k s r)
      = Tree.kvList l ++ (k, s) :: Tree.kvList r from rfl]
    rw [show Tree.allOrders (Tree.node l k s r)
      = Tree.allOrders l ++ s ++ Tree.allOrders r from rfl]
    rw [List.map_append, List.flatten_append, List.map_cons, List.flatten_cons,
      ihl, ihr, List.append_assoc]

theorem posList_stacks_join (t : Tree) :
    (((Tree.posList t).map (Tree.stackAtD t)).flatten : List Order) = Tree.allOrders t := by
  have hcomp : Tree.stackAtD t
      = (fun (oi : Option (ℚ × List Order)) =>
          ((oi.map (fun (q : ℚ × List Order) => q.2)).getD [] : List Order))
        ∘ Tree.itemAt t :=
    funext (fun p => rfl)
  rw [hcomp, ← List.map_map, Tree.posList_items, List.map_map]
  have hmap : ((fun (oi : Option (ℚ × List Order)) =>
        ((oi.map (fun (q : ℚ × List Order) => q.2)).getD [] : List Order))
      ∘ (some : (ℚ × List Order) → Option (ℚ × List Order)))
      = fun (kv : ℚ × List Order) => kv.2 :=
    funext (fun kv => rfl)
  rw [hmap, kvList_snd_join]

/-- C9: on any book whose asks tree is empty and whose bids tree holds at
least one resting order, a full run of the `orderbook_py.rs` full-order
iterator yields exactly the resting bid orders in book order and then
PANICS — the `Side::Bids`/`current_node == None` branch of `Iter::next`
unwraps the next ask node, absent here — instead of reporting the end of
iteration. -/
theorem claim_C9 (b : BookPy) (ha : b.asks = Tree.leaf)
    (hb : b.bids.allOrders ≠ []) :
    b.iterRun = (b.bids.allOrders, ROut.panicked) := by
  have hne : b.bids ≠ Tree.leaf := by
    intro h
    exact hb (by rw [h]; rfl)
  have hinit : LIter.init b.bids Tree.leaf
      = ⟨Side.Bids, some (Tree.leftSpine b.bids),
          ⟨some (Tree.leftSpine b.bids), false⟩, ⟨none, true⟩,
          some (Tree.stackAtD b.bids (Tree.leftSpine b.bids))⟩ := by
    simp [LIter.init, Tree.TIter.init, Tree.treeNext, hne]
  have hpl : Tree.posList b.bids
      = Tree.leftSpine b.bids :: (Tree.posList b.bids).tail := by
    have h1 := Tree.posList_head b.bids hne
    cases hp : Tree.posList b.bids with
    | nil => exact absurd hp (Tree.posList_ne_nil b.bids hne)
    | cons x xs =>
      rw [hp] at h1
      have hx : x = Tree.leftSpine b.bids := Option.some.inj h1
      simp [hx]
  have hlen : ((Tree.posList b.bids).tail).length ≤ Tree.size b.bids := by
    have h := Tree.posList_length b.bids
    rw [List.length_tail, h]
    omega
  have hch : List.Chain' (fun a c => Tree.nextPos b.bids a = some c)
      (Tree.leftSpine b.bids :: (Tree.posList b.bids).tail) := by
    rw [← hpl]
    exact Tree.chain_posList b.bids
  have hlast : ∀ z,
      (Tree.leftSpine b.bids :: (Tree.posList b.bids).tail).getLast? = some z →
      Tree.nextPos b.bids z = none := by
    intro z hz
    rw [← hpl] at hz
    rw [Tree.posList_getLast b.bids hne] at hz
    rw [← Option.some.inj hz]
    exact Tree.nextPos_rightSpine b.bids hne
  have hjoin : Tree.stackAtD b.bids (Tree.leftSpine b.bids) ++
      ((((Tree.posList b.bids).tail).map (Tree.stackAtD b.bids)).flatten : List Order)
      = Tree.allOrders b.bids := by
    have h := posList_stacks_join b.bids
    rw [hpl] at h
    rw [List.map_cons, List.flatten_cons] at h
    exact h
  have hfuel : (Tree.stackAtD b.bids (Tree.leftSpine b.bids)).length +
      ((((Tree.posList b.bids).tail).map (Tree.stackAtD b.bids)).flatten : List Order).length + 1
      ≤ (Tree.allOrders b.bids).length + (Tree.allOrders Tree.leaf).length + 2 := by
    have h := congrArg List.length hjoin
    rw [List.length_append] at h
    have h0 : (Tree.allOrders Tree.leaf).length = 0 := rfl
    omega
  have hrun := lobRun_scan b.bids
    ((Tree.allOrders b.bids).length + (Tree.allOrders Tree.leaf).length + 2)
    ((Tree.posList b.bids).tail) (Tree.leftSpine b.bids)
    (Tree.stackAtD b.bids (Tree.leftSpine b.bids)) hlen hch hlast hfuel
  show lobRun b.bids b.asks
      ((Tree.allOrders b.bids).length + (Tree.allOrders b.asks).length + 2)
      (LIter.init b.bids b.asks) = (Tree.allOrders b.bids, ROut.panicked)
  rw [ha, hinit, hrun, hjoin]

/-- Witness for C9: a one-bid book with empty asks runs to a panic after
yielding its single order. -/
theorem claim_C9_witness :
    (⟨Tree.node Tree.leaf 5 [⟨1, Side.Bids, 5, 2, 0⟩] Tree.leaf,
        Tree.leaf, [], 1, 0⟩ : BookPy).iterRun
      = ((⟨Tree.node Tree.leaf 5 [⟨1, Side.Bids, 5, 2, 0⟩] Tree.leaf,
          Tree.leaf, [], 1, 0⟩ : BookPy).bids.allOrders, ROut.panicked) :=
  claim_C9 ⟨Tree.node Tree.leaf 5 [⟨1, Side.Bids, 5, 2, 0⟩] Tree.leaf,
    Tree.leaf, [], 1, 0⟩ rfl (by decide)

end LOB
